import Mathlib

/-!
Verification development for the envdiff repository.

The definitions below are shallow embeddings of the Python sources
(envdiff/analysis.py, envdiff/diff.py, envdiff/report_formatter.py):
YAML/JSON values become the inductive type Val (mappings are modelled as
insertion-ordered association lists, mirroring Python dict semantics;
parsed YAML mappings have unique keys), file paths handed to load_config
are modelled as absolute, already-split component lists, and strings that
denote paths inside configuration values keep their string form and are
split on the slash character exactly where the Python code does.
Fallible code returns Option; recursion through the extends chain is
fuel-indexed (the Python code has no cycle detection and would recurse
forever on a cyclic chain, which the fuel makes explicit).
-/

namespace EnvDiff

/-- Parsed YAML/JSON value. Mappings keep insertion order like Python
dicts; keys of parsed YAML mappings are strings. -/
inductive Val where
  | null : Val
  | bool : Bool → Val
  | int : Int → Val
  | str : String → Val
  | list : List Val → Val
  | dict : List (String × Val) → Val

mutual
/-- Decidable equality of values (Python structural equality on parsed
YAML/JSON data). -/
def valDecEq : (a b : Val) → Decidable (a = b)
  | .null, .null => isTrue rfl
  | .null, .bool _ => isFalse fun h => Val.noConfusion h
  | .null, .int _ => isFalse fun h => Val.noConfusion h
  | .null, .str _ => isFalse fun h => Val.noConfusion h
  | .null, .list _ => isFalse fun h => Val.noConfusion h
  | .null, .dict _ => isFalse fun h => Val.noConfusion h
  | .bool _, .null => isFalse fun h => Val.noConfusion h
  | .bool x, .bool y =>
    match decEq x y with
    | isTrue h => isTrue (by rw [h])
    | isFalse h => isFalse fun hh => h (by injection hh)
  | .bool _, .int _ => isFalse fun h => Val.noConfusion h
  | .bool _, .str _ => isFalse fun h => Val.noConfusion h
  | .bool _, .list _ => isFalse fun h => Val.noConfusion h
  | .bool _, .dict _ => isFalse fun h => Val.noConfusion h
  | .int _, .null => isFalse fun h => Val.noConfusion h
  | .int _, .bool _ => isFalse fun h => Val.noConfusion h
  | .int x, .int y =>
    match decEq x y with
    | isTrue h => isTrue (by rw [h])
    | isFalse h => isFalse fun hh => h (by injection hh)
  | .int _, .str _ => isFalse fun h => Val.noConfusion h
  | .int _, .list _ => isFalse fun h => Val.noConfusion h
  | .int _, .dict _ => isFalse fun h => Val.noConfusion h
  | .str _, .null => isFalse fun h => Val.noConfusion h
  | .str _, .bool _ => isFalse fun h => Val.noConfusion h
  | .str _, .int _ => isFalse fun h => Val.noConfusion h
  | .str x, .str y =>
    match decEq x y with
    | isTrue h => isTrue (by rw [h])
    | isFalse h => isFalse fun hh => h (by injection hh)
  | .str _, .list _ => isFalse fun h => Val.noConfusion h
  | .str _, .dict _ => isFalse fun h => Val.noConfusion h
  | .list _, .null => isFalse fun h => Val.noConfusion h
  | .list _, .bool _ => isFalse fun h => Val.noConfusion h
  | .list _, .int _ => isFalse fun h => Val.noConfusion h
  | .list _, .str _ => isFalse fun h => Val.noConfusion h
  | .list x, .list y =>
    match valListDecEq x y with
    | isTrue h => isTrue (by rw [h])
    | isFalse h => isFalse fun hh => h (by injection hh)
  | .list _, .dict _ => isFalse fun h => Val.noConfusion h
  | .dict _, .null => isFalse fun h => Val.noConfusion h
  | .dict _, .bool _ => isFalse fun h => Val.noConfusion h
  | .dict _, .int _ => isFalse fun h => Val.noConfusion h
  | .dict _, .str _ => isFalse fun h => Val.noConfusion h
  | .dict _, .list _ => isFalse fun h => Val.noConfusion h
  | .dict x, .dict y =>
    match valPairsDecEq x y with
    | isTrue h => isTrue (by rw [h])
    | isFalse h => isFalse fun hh => h (by injection hh)

/-- Decidable equality of value lists. -/
def valListDecEq : (a b : List Val) → Decidable (a = b)
  | [], [] => isTrue rfl
  | [], _ :: _ => isFalse fun h => List.noConfusion h
  | _ :: _, [] => isFalse fun h => List.noConfusion h
  | x :: xs, y :: ys =>
    match valDecEq x y with
    | isFalse h => isFalse fun hh => h (by injection hh)
    | isTrue h1 =>
      match valListDecEq xs ys with
      | isTrue h2 => isTrue (by rw [h1, h2])
      | isFalse h2 => isFalse fun hh => h2 (by injection hh)

/-- Decidable equality of key-value pair lists. -/
def valPairsDecEq : (a b : List (String × Val)) → Decidable (a = b)
  | [], [] => isTrue rfl
  | [], _ :: _ => isFalse fun h => List.noConfusion h
  | _ :: _, [] => isFalse fun h => List.noConfusion h
  | (k₁, v₁) :: xs, (k₂, v₂) :: ys =>
    match decEq k₁ k₂ with
    | isFalse h => isFalse fun hh => by
        injection hh with hh₁ hh₂
        exact h (congrArg Prod.fst hh₁)
    | isTrue h1 =>
      match valDecEq v₁ v₂ with
      | isFalse h => isFalse fun hh => by
          injection hh with hh₁ hh₂
          exact h (congrArg Prod.snd hh₁)
      | isTrue h2 =>
        match valPairsDecEq xs ys with
        | isTrue h3 => isTrue (by rw [h1, h2, h3])
        | isFalse h3 => isFalse fun hh => h3 (by injection hh)
end

instance : DecidableEq Val := valDecEq

/-- Python dict lookup: value at the first (unique, for parsed YAML)
occurrence of a key. -/
def dget : List (String × Val) → String → Option Val
  | [], _ => none
  | (k₀, v₀) :: rest, k => if k₀ = k then some v₀ else dget rest k

/-- Python dict item assignment: replace the value at an existing key in
place (keeping its position), otherwise append the new key at the end. -/
def dset : List (String × Val) → String → Val → List (String × Val)
  | [], k, v => [(k, v)]
  | (k₀, v₀) :: rest, k, v =>
    if k₀ = k then (k, v) :: rest else (k₀, v₀) :: dset rest k v

/-- Python dict.pop: remove a key. Parsed YAML mappings have unique keys,
so removing every occurrence agrees with removing the single one. -/
def derase (d : List (String × Val)) (k : String) : List (String × Val) :=
  d.filter (fun kv => kv.1 != k)

/-- Key list of a mapping. -/
def dkeys (d : List (String × Val)) : List String := d.map Prod.fst

/-- Python truthiness of a parsed YAML value (None, False, 0, empty
string, empty sequence and empty mapping are falsy). -/
def isFalsy : Val → Bool
  | .null => true
  | .bool b => !b
  | .int n => n == 0
  | .str s => s == ""
  | .list l => l.isEmpty
  | .dict m => m.isEmpty

mutual
/-- Embedding of analysis._merge_dicts: merge new into base. Each key of
new is processed in order; the combination with the existing value at
that key is mergeOne. -/
def mergeDicts : List (String × Val) → List (String × Val) → List (String × Val)
  | base, [] => base
  | base, (k, v) :: rest => mergeDicts (dset base k (mergeOne (dget base k) v)) rest
/-- One key step of analysis._merge_dicts: lists are appended to an
existing list (otherwise copied), mappings are merged recursively into an
existing mapping (otherwise into an empty one), anything else replaces. -/
def mergeOne : Option Val → Val → Val
  | old, .list l =>
    match old with
    | some (.list e) => .list (e ++ l)
    | _ => .list l
  | old, .dict m =>
    match old with
    | some (.dict bm) => .dict (mergeDicts bm m)
    | _ => .dict (mergeDicts [] m)
  | _, .null => .null
  | _, .bool b => .bool b
  | _, .int n => .int n
  | _, .str s => .str s
end

/-- Embedding of the seen-set loop of the local _dedup helper in
load_config: keep the first occurrence of each element. -/
def dedupAux (seen : List Val) : List Val → List Val
  | [] => []
  | x :: xs => if seen.contains x then dedupAux seen xs else x :: dedupAux (x :: seen) xs

/-- Embedding of _dedup: remove duplicates, keeping first-seen order. -/
def dedupList (l : List Val) : List Val := dedupAux [] l

/-- Python str.splitlines on text using newline or carriage-return line
boundaries (the conventions that can occur in this pipeline). -/
def splitlinesAux : List Char → List Char → List (List Char)
  | [], [] => []
  | [], cur => [cur.reverse]
  | '\r' :: '\n' :: rest, cur => cur.reverse :: splitlinesAux rest []
  | '\n' :: rest, cur => cur.reverse :: splitlinesAux rest []
  | '\r' :: rest, cur => cur.reverse :: splitlinesAux rest []
  | c :: rest, cur => splitlinesAux rest (c :: cur)

/-- Python str.splitlines of a string. -/
def pySplitlines (s : String) : List String :=
  (splitlinesAux s.data []).map String.mk

/-- Split a character list at every occurrence of a separator, like
Python str.split with a one-character separator. -/
def splitCharAux (sep : Char) : List Char → List Char → List (List Char)
  | [], cur => [cur.reverse]
  | c :: cs, cur =>
    if c = sep then cur.reverse :: splitCharAux sep cs []
    else splitCharAux sep cs (c :: cur)

/-- Components of a path string, split on the slash character. -/
def splitSlash (s : String) : List String :=
  (splitCharAux '/' s.data []).map String.mk

/-- Interleave a separator character between string pieces, like the
Python str.join of a one-character separator. -/
def joinSep (sep : Char) : List (List Char) → List Char
  | [] => []
  | [x] => x
  | x :: y :: rest => x ++ sep :: joinSep sep (y :: rest)

/-- Join strings with a one-character separator. -/
def joinWith (sep : Char) (parts : List String) : String :=
  String.mk (joinSep sep (parts.map String.data))

/-- PurePosixPath.is_absolute / os.path.isabs: the string starts with a
slash. -/
def isAbsolute (s : String) : Bool :=
  match s.data with
  | '/' :: _ => true
  | _ => false

/-- One component step of POSIX path normalization of an absolute path:
empty and dot components vanish, dot-dot pops (staying at the root when
already there), anything else is appended. -/
def normStep (acc : List String) (c : String) : List String :=
  if c = "" || c = "." then acc
  else if c = ".." then acc.dropLast
  else acc ++ [c]

/-- Normalize the component list of an absolute path, as Path.resolve and
os.path.normpath do on a symlink-free absolute POSIX path. -/
def normComps (cs : List String) : List String := cs.foldl normStep []

/-- Embedding of (dir / s).resolve(): absolute strings stand alone,
relative ones are joined under dir; the result is normalized. The
directory is an absolute path given as components. -/
def resolveUnder (dir : List String) (s : String) : List String :=
  if isAbsolute s then normComps (splitSlash s) else normComps (dir ++ splitSlash s)

/-- Length of the common prefix of two component lists. -/
def commonPrefixLen : List String → List String → Nat
  | x :: xs, y :: ys => if x = y then commonPrefixLen xs ys + 1 else 0
  | _, _ => 0

/-- Relative step list from start to target (both normalized absolute
component lists), as os.path.relpath builds it: one dot-dot per component
of start past the common prefix, then the remainder of target. -/
def relParts (target start : List String) : List String :=
  List.replicate (start.length - commonPrefixLen target start) ".." ++
    target.drop (commonPrefixLen target start)

/-- Embedding of os.path.relpath on absolute inputs: normalize both, take
the relative step list, and render it (a dot for the empty walk). -/
def relpathStr (target start : List String) : String :=
  match relParts (normComps target) (normComps start) with
  | [] => "."
  | parts => joinWith '/' parts

/-- Embedding of the per-entry body of _resolve_relative_paths: a mapping
entry whose src field is a relative path string is rewritten to the
resolved path re-expressed relative to the root directory. Entries whose
src is not a string would make Path() raise in Python and are kept
unchanged here; non-mapping entries are untouched, as in the source. -/
def rewriteEntry (baseDir rootDir : List String) (e : Val) : Val :=
  match e with
  | .dict m =>
    match dget m "src" with
    | some (.str s) =>
      if isAbsolute s then .dict m
      else .dict (dset m "src" (.str (relpathStr (resolveUnder baseDir s) rootDir)))
    | _ => .dict m
  | e => e

/-- Embedding of analysis._resolve_relative_paths: rewrite the src of
every entry under prepare.copy_files. When prepare is not a mapping or
copy_files is not a sequence the Python loop body never fires on a
mapping entry, so the configuration is unchanged. -/
def resolveRelativePaths (cfg : List (String × Val)) (baseDir rootDir : List String) :
    List (String × Val) :=
  match dget cfg "prepare" with
  | some (.dict pm) =>
    match dget pm "copy_files" with
    | some (.list entries) =>
      dset cfg "prepare"
        (.dict (dset pm "copy_files" (.list (entries.map (rewriteEntry baseDir rootDir)))))
    | _ => cfg
  | _ => cfg

/-- String content of an extends element; anything else makes Path()
raise in Python. -/
def extStr : Val → Option String
  | .str s => some s
  | _ => none

/-- Normalization of the extends value in load_config: a bare string is a
one-element chain, a sequence must consist of strings; other shapes make
the Python loop raise. -/
def extendsStrings : Val → Option (List String)
  | .str s => some [s]
  | .list l => l.mapM extStr
  | _ => none

/-- Title normalization in load_config: a string title is collapsed to a
single line, joining its lines with one space. -/
def normalizeTitle (cfg : List (String × Val)) : List (String × Val) :=
  match dget cfg "title" with
  | some (.str t) => dset cfg "title" (.str (joinWith ' ' (pySplitlines t)))
  | _ => cfg

/-- Keys whose list values load_config de-duplicates after the final
merge. -/
def dedupKeyList : List String := ["target_dirs", "exclude_paths", "omit_diff_paths"]

/-- De-duplicate the list value at one key, if present and a sequence. -/
def dedupAtKey (cfg : List (String × Val)) (k : String) : List (String × Val) :=
  match dget cfg k with
  | some (.list l) => dset cfg k (.list (dedupList l))
  | _ => cfg

/-- Post-merge de-duplication step of load_config. -/
def dedupKeysCfg (cfg : List (String × Val)) : List (String × Val) :=
  dedupKeyList.foldl dedupAtKey cfg

/-- Folding of the extends loop in load_config: each entry is resolved
against the current document's directory and loaded (the load parameter
is the recursive loader at the remaining fuel, sharing the root
directory), and the results are merged left to right into the
accumulator. -/
def loadExtends (load : List String → Option (List (String × Val)))
    (pdir : List String) :
    List String → List (String × Val) → Option (List (String × Val))
  | [], acc => some acc
  | ext :: rest, acc =>
    match load (resolveUnder pdir ext) with
    | none => none
    | some ecfg => loadExtends load pdir rest (mergeDicts acc ecfg)

/-- Embedding of analysis.load_config. The filesystem is a partial map
from absolute component paths to parsed YAML documents (none models a
missing file); fuel bounds the extends recursion, which the Python code
leaves unbounded. A document that parses to a falsy value is replaced by
the empty mapping, a non-mapping truthy document makes the attribute
lookups raise in Python (none here), and the extends chain is folded by
loadExtends before the current document is merged on top. -/
def loadConfigAux (fs : List String → Option Val) :
    Nat → List String → List String → Option (List (String × Val))
  | 0, _, _ => none
  | fuel + 1, p, root =>
    match fs p with
    | none => none
    | some raw =>
      match (if isFalsy raw then Val.dict [] else raw) with
      | .dict cfg₀ =>
        let cfg := resolveRelativePaths cfg₀ p.dropLast root
        match extendsStrings ((dget cfg "extends").getD (Val.list [])) with
        | none => none
        | some exts =>
          match loadExtends (fun q => loadConfigAux fs fuel q root) p.dropLast exts [] with
          | none => none
          | some combined =>
            some (dedupKeysCfg (normalizeTitle (mergeDicts combined (derase cfg "extends"))))
      | _ => none

/-- Embedding of the public load_config entry point: the root directory
is the directory of the requested configuration file. -/
def load_config (fs : List String → Option Val) (fuel : Nat) (p : List String) :
    Option (List (String × Val)) :=
  loadConfigAux fs fuel p p.dropLast

/-- Header detection of _omit_diff_details: the line is nonempty and its
first character is an alphabetic letter. -/
def isHeaderLine (l : String) : Bool :=
  match l.data with
  | [] => false
  | c :: _ => c.isAlpha

/-- Python substring membership test (p in line). -/
def containsSub (hay pat : String) : Bool :=
  hay.data.tails.any (fun t => pat.data.isPrefixOf t)

/-- Python line.startswith applied to the diff header marker. -/
def startsWithDiff (l : String) : Bool :=
  ("diff ").data.isPrefixOf l.data

/-- Embedding of the line loop of diff._omit_diff_details: a header line
refreshes the skip state (and, when skipped and a diff header, gains the
omitted marker); non-header lines are kept only while not skipping. -/
def omitLines (paths : List String) : List String → Bool → List String
  | [], _ => []
  | l :: ls, skip =>
    if isHeaderLine l then
      let skip₁ := paths.any (fun p => containsSub l p)
      (if skip₁ && startsWithDiff l then l ++ " (omitted)" else l) :: omitLines paths ls skip₁
    else if skip then omitLines paths ls skip
    else l :: omitLines paths ls skip

/-- Python text.endswith of a single newline. -/
def keepNewline (s : String) : Bool :=
  match s.data.getLast? with
  | some '\n' => true
  | _ => false

/-- Embedding of diff._omit_diff_details: split into lines, filter with
the skip loop, rejoin, and restore a trailing newline when the input had
one and the result is nonempty. -/
def omitDiffDetails (diffText : String) (paths : List String) : String :=
  let lines := pySplitlines diffText
  let filtered := omitLines paths lines false
  let result := joinWith '\n' filtered
  if keepNewline diffText && result != "" then result ++ "\n" else result

/-- Decomposition of a line list into diff entries: a new entry starts at
every header line; every following non-header line belongs to the entry
that the preceding header opened; lines before the first header form a
headerless leading group. This is the entry structure that both the skip
loop of _omit_diff_details and the header-anchored split in run_analysis
operate on. -/
def groupLines : List String → List (List String)
  | [] => []
  | l :: ls =>
    (l :: ls.takeWhile (fun x => !isHeaderLine x)) ::
      groupLines (ls.dropWhile (fun x => !isHeaderLine x))
termination_by ls => ls.length
decreasing_by
  simp only [List.length_cons]
  exact Nat.lt_succ_of_le (List.dropWhile_sublist _).length_le

/-- Per-entry effect of _omit_diff_details: an entry whose header line
contains one of the patterns keeps only its header (with the omitted
marker exactly when the header starts with the diff marker); any other
entry, and the headerless leading group, passes through unchanged. -/
def entryOmit (paths : List String) (g : List String) : List String :=
  match g with
  | [] => []
  | h :: body =>
    if isHeaderLine h then
      if paths.any (fun p => containsSub h p) then
        if startsWithDiff h then [h ++ " (omitted)"] else [h]
      else h :: body
    else h :: body

/-- One command_diff request: the command to capture and the outfile
whose basename names the capture files. -/
structure CmdDiffSpec where
  command : String
  outfile : String
deriving DecidableEq

/-- One entry of the report's command_outputs list. -/
structure CommandOutput where
  command : String
  diff_file : String
  diff_content : String
deriving DecidableEq

/-- Python Path(s).name: the last nonempty slash-separated component. -/
def pathBasename (s : String) : String :=
  ((splitSlash s).filter (fun c => c != "")).getLastD ""

/-- Join a directory string and a file name with a slash. -/
def joinPath (dir name : String) : String := dir ++ "/" ++ name

/-- Single-quote character, used by the skip-reason message. -/
def squote : String := String.singleton (Char.ofNat 39)

/-- Python str.join with a comma-space separator. -/
def joinCommaSep : List String → String
  | [] => ""
  | [x] => x
  | x :: y :: rest => x ++ ", " ++ joinCommaSep (y :: rest)

/-- Python s[:-1]: drop the final character. -/
def dropLastChar (s : String) : String := String.mk s.data.dropLast

/-- Missing-file descriptions collected by the command_diff loop of
run_analysis, in baseline-then-after order. -/
def missingInfo (baseDir afterDir : String) (ex : String → Bool) (name : String) :
    List String :=
  (if ex (joinPath baseDir name) then []
   else ["baseline output " ++ squote ++ joinPath baseDir name ++ squote]) ++
  (if ex (joinPath afterDir name) then []
   else ["after output " ++ squote ++ joinPath afterDir name ++ squote])

/-- Embedding of one iteration of the command_diff loop of run_analysis
(analysis.py lines 226 to 251): when both capture files exist the diff
text (its trailing character dropped) is recorded, otherwise a skip
message naming the missing files. The parameter ex is the host
filesystem existence test and diffFn the text-mode diff collaborator. -/
def commandOutputFor (baseDir afterDir : String) (ex : String → Bool)
    (diffFn : String → String → String) (e : CmdDiffSpec) : CommandOutput :=
  let name := pathBasename e.outfile
  let baseFile := joinPath baseDir name
  let afterFile := joinPath afterDir name
  if ex baseFile && ex afterFile then
    { command := e.command, diff_file := e.outfile,
      diff_content := dropLastChar (diffFn baseFile afterFile) }
  else
    { command := e.command, diff_file := e.outfile,
      diff_content := "Skipped: Output file(s) not found (" ++
        joinCommaSep (missingInfo baseDir afterDir ex name) ++ ")." }

/-- Embedding of the whole command_diff loop: one output entry per
request, in order, never aborting. -/
def buildCommandOutputs (baseDir afterDir : String) (ex : String → Bool)
    (diffFn : String → String → String) (entries : List CmdDiffSpec) :
    List CommandOutput :=
  entries.map (commandOutputFor baseDir afterDir ex diffFn)

/-- Whitespace characters stripped by Python str.rstrip (space, tab,
newline, carriage return, vertical tab, form feed). -/
def pyIsSpace (c : Char) : Bool :=
  c == ' ' || c == '\t' || c == '\n' || c == '\r' ||
    c == Char.ofNat 11 || c == Char.ofNat 12

/-- Strip trailing whitespace from a character list. -/
def rstripChars (l : List Char) : List Char :=
  (l.reverse.dropWhile pyIsSpace).reverse

/-- Python str.rstrip with no argument. -/
def pyRstrip (s : String) : String := String.mk (rstripChars s.data)

/-- Embedding of report_formatter._indent_block: prefix every line of the
text with the given number of spaces and rejoin. -/
def indentBlock (text : String) (indent : Nat) : String :=
  joinWith '\n' ((pySplitlines text).map
    (fun line => String.mk (List.replicate indent ' ') ++ line))

/-- Lowercase hexadecimal digit. -/
def hexDigit (n : Nat) : Char :=
  if n < 10 then Char.ofNat (48 + n) else Char.ofNat (87 + n)

/-- JSON escaping of one character, with ensure_ascii disabled as in the
formatter (non-ASCII characters stay literal). -/
def jsonEscapeChar (c : Char) : List Char :=
  if c = '"' then ['\\', '"']
  else if c = '\\' then ['\\', '\\']
  else if c = '\n' then ['\\', 'n']
  else if c = '\t' then ['\\', 't']
  else if c = '\r' then ['\\', 'r']
  else if c = Char.ofNat 8 then ['\\', 'b']
  else if c = Char.ofNat 12 then ['\\', 'f']
  else if c.toNat < 32 then
    ['\\', 'u', '0', '0', hexDigit (c.toNat / 16), hexDigit (c.toNat % 16)]
  else [c]

/-- JSON rendering of a string literal. -/
def jsonStr (s : String) : String :=
  String.mk ('"' :: (s.data.map jsonEscapeChar).flatten ++ ['"'])

/-- Indentation prefix of json.dumps with indent two at a nesting
level. -/
def jsonIndent (lvl : Nat) : String := String.mk (List.replicate (lvl * 2) ' ')

mutual
/-- Embedding of json.dumps(value, indent=2, ensure_ascii=False) as the
formatter invokes it on mapping and sequence definition values. -/
def jsonDumps (lvl : Nat) : Val → String
  | .null => "null"
  | .bool b => if b then "true" else "false"
  | .int n => toString n
  | .str s => jsonStr s
  | .list [] => "[]"
  | .list (x :: xs) =>
    "[\n" ++ jsonItems (lvl + 1) (x :: xs) ++ "\n" ++ jsonIndent lvl ++ "]"
  | .dict [] => "\x7b\x7d"
  | .dict (kv :: kvs) =>
    "\x7b\n" ++ jsonPairs (lvl + 1) (kv :: kvs) ++ "\n" ++ jsonIndent lvl ++ "\x7d"
/-- Comma-and-newline separated JSON sequence items at a nesting
level. -/
def jsonItems (lvl : Nat) : List Val → String
  | [] => ""
  | [x] => jsonIndent lvl ++ jsonDumps lvl x
  | x :: y :: rest =>
    jsonIndent lvl ++ jsonDumps lvl x ++ ",\n" ++ jsonItems lvl (y :: rest)
/-- Comma-and-newline separated JSON mapping items at a nesting level. -/
def jsonPairs (lvl : Nat) : List (String × Val) → String
  | [] => ""
  | [(k, v)] => jsonIndent lvl ++ jsonStr k ++ ": " ++ jsonDumps lvl v
  | (k, v) :: kv :: rest =>
    jsonIndent lvl ++ jsonStr k ++ ": " ++ jsonDumps lvl v ++ ",\n" ++
      jsonPairs lvl (kv :: rest)
end

/-- Escaping of one character inside a Python string repr with the given
quote character. -/
def pyEscape (q : Char) (c : Char) : List Char :=
  if c = '\\' then ['\\', '\\']
  else if c = q then ['\\', q]
  else if c = '\n' then ['\\', 'n']
  else if c = '\r' then ['\\', 'r']
  else if c = '\t' then ['\\', 't']
  else [c]

/-- Python repr of a string: single-quoted unless the string contains a
single quote and no double quote. -/
def reprString (s : String) : String :=
  let q := if s.data.contains (Char.ofNat 39) && !s.data.contains '"' then '"'
           else Char.ofNat 39
  String.mk (q :: (s.data.map (pyEscape q)).flatten ++ [q])

mutual
/-- Python repr of a parsed YAML/JSON value, as produced when an f-string
interpolates a non-string container. -/
def pyRepr : Val → String
  | .null => "None"
  | .bool b => if b then "True" else "False"
  | .int n => toString n
  | .str s => reprString s
  | .list l => "[" ++ pyReprItems l ++ "]"
  | .dict m => "\x7b" ++ pyReprPairs m ++ "\x7d"
/-- Comma separated sequence member reprs. -/
def pyReprItems : List Val → String
  | [] => ""
  | [x] => pyRepr x
  | x :: y :: rest => pyRepr x ++ ", " ++ pyReprItems (y :: rest)
/-- Comma separated mapping item reprs. -/
def pyReprPairs : List (String × Val) → String
  | [] => ""
  | [(k, v)] => reprString k ++ ": " ++ pyRepr v
  | (k, v) :: kv :: rest =>
    reprString k ++ ": " ++ pyRepr v ++ ", " ++ pyReprPairs (kv :: rest)
end

/-- Python str of a parsed YAML/JSON value, as an f-string renders it. -/
def pyStr : Val → String
  | .str s => s
  | v => pyRepr v

/-- Python iteration over a parsed YAML/JSON value: sequences yield their
members, strings their characters, mappings their keys. Values Python
cannot iterate yield nothing here (the source would raise). -/
def pyIterItems : Val → List Val
  | .list l => l
  | .str s => s.data.map (fun c => Val.str (String.singleton c))
  | .dict m => m.map (fun kv => Val.str kv.1)
  | _ => []

/-- Python value.get(key) for a mapping value; non-mappings, on which the
source would raise, yield nothing. -/
def vget (v : Val) (k : String) : Option Val :=
  match v with
  | .dict m => dget m k
  | _ => none

/-- Python value.get(key, default). -/
def vgetD (v : Val) (k : String) (d : Val) : Val := (vget v k).getD d

/-- Truthiness of an optional value (a missing key is falsy). -/
def optTruthy : Option Val → Bool
  | none => false
  | some v => !isFalsy v

/-- Preferred definition key order of the formatter. -/
def orderedDefKeys : List String :=
  ["base_image", "prepare", "target_dirs", "exclude_paths", "omit_diff_paths"]

/-- Filtering of the main_operation definition value: a mapping loses its
commands key and is skipped entirely (none) when nothing remains. -/
def filterMainOp : Val → Option Val
  | .dict m =>
    let m₁ := m.filter (fun kv => kv.1 != "commands")
    if m₁.isEmpty then none else some (.dict m₁)
  | v => some v

/-- Rendering of one prepare.copy_files item. -/
def copyFileLine : Val → String
  | .dict im =>
    "    - " ++ pyStr ((dget im "src").getD (.str "")) ++ " -> " ++
      pyStr ((dget im "dest").getD (.str ""))
  | it => "    - " ++ pyStr it

/-- Rendering of the nested prepare mapping in the definitions block. -/
def prepLines (pm : List (String × Val)) : List String :=
  let copyFiles := (dget pm "copy_files").getD (.list [])
  let cfLines :=
    if isFalsy copyFiles then []
    else "  copy_files:" :: (pyIterItems copyFiles).map copyFileLine
  let cmds := (dget pm "commands").getD (.list [])
  let cmdLines :=
    if isFalsy cmds then []
    else "  commands:" :: (pyIterItems cmds).map (fun c => "    - " ++ pyStr c)
  let extras := pm.filter (fun kv => kv.1 != "copy_files" && kv.1 != "commands")
  let extraLines := extras.map (fun kv =>
    match kv.2 with
    | .dict m => indentBlock (jsonDumps 0 (.dict m)) 2
    | .list l => indentBlock (jsonDumps 0 (.list l)) 2
    | v => "  " ++ kv.1 ++ ": " ++ pyStr v)
  cfLines ++ cmdLines ++ extraLines

/-- Generic rendering of a definition value: containers are
pretty-printed as indented JSON, scalars on a two-space line. -/
def genericValLines : Val → List String
  | .dict m => [indentBlock (jsonDumps 0 (.dict m)) 2]
  | .list l => [indentBlock (jsonDumps 0 (.list l)) 2]
  | v => ["  " ++ pyStr v]

/-- Rendering of one definitions key, mirroring the loop body of
json_report_to_text: command_diff is suppressed, main_operation is
filtered, prepare mappings and the three path-list keys get dedicated
layouts, everything else renders generically. -/
def defLinesFor (k : String) (v : Val) : List String :=
  if k = "command_diff" then []
  else
    match (if k = "main_operation" then filterMainOp v else some v) with
    | none => []
    | some v₁ =>
      ("- " ++ k ++ ":") ::
      (match k, v₁ with
       | "prepare", .dict pm => prepLines pm
       | _, _ =>
         match v₁ with
         | .list items =>
           if k = "target_dirs" || k = "exclude_paths" || k = "omit_diff_paths" then
             items.map (fun it => "  - " ++ pyStr it)
           else genericValLines (.list items)
         | w => genericValLines w)

/-- Definition keys in render order: the preferred keys that are present,
then the remaining keys in insertion order. -/
def defKeysOrdered (dm : List (String × Val)) : List String :=
  let okeys := orderedDefKeys.filter (fun k => (dget dm k).isSome)
  okeys ++ (dkeys dm).filter (fun k => !okeys.contains k)

/-- Rendering of the definitions block (empty when the definitions value
is falsy; a truthy non-mapping would make the source raise and renders
nothing here). -/
def definitionsLines (defs : Val) : List String :=
  match defs with
  | .dict dm =>
    if dm.isEmpty then []
    else
      "Definitions:" ::
        ((defKeysOrdered dm).map (fun k =>
          defLinesFor k ((dget dm k).getD .null))).flatten ++ [""]
  | _ => []

/-- Rendering of one main-operation result entry. -/
def mainOpResultLines (entry : Val) : List String :=
  ("- " ++ pyStr (vgetD entry "command" (.str "")) ++ " (exit code " ++
    pyStr (vgetD entry "return_code" (.str "N/A")) ++ ")") ::
  (if optTruthy (vget entry "stdout") then
    ["  stdout:", indentBlock (pyStr (vgetD entry "stdout" .null)) 4]
   else []) ++
  (if optTruthy (vget entry "stderr") then
    ["  stderr:", indentBlock (pyStr (vgetD entry "stderr" .null)) 4]
   else [])

/-- Rendering of one urN diff block: first line as the bullet head, the
rest indented; blocks with no lines are skipped. -/
def urnBlockLines (item : Val) : List String :=
  match pySplitlines (pyStr item) with
  | [] => []
  | l :: rest => ("  - " ++ l) :: rest.map (fun dl => "    " ++ dl)

/-- Rendering of one command-output diff block. -/
def commandOutputLines (entry : Val) : List String :=
  ("Command diff for: " ++ pyStr (vgetD entry "command" (.str "")) ++
    " (file: " ++ pyStr (vgetD entry "diff_file" (.str "")) ++ ")") ::
  (if optTruthy (vget entry "diff_content") then
    [indentBlock (pyStr (vgetD entry "diff_content" .null)) 2]
   else ["  No diff content available."]) ++ [""]

/-- Embedding of report_formatter.json_report_to_text on the parsed
report value (the source reads the report file first; the rendering
itself consumes only the parsed data). -/
def jsonReportToText (data : Val) : String :=
  let meta := vgetD data "report_metadata" (.dict [])
  let metaLines :=
    ("Report generated on: " ++ pyStr (vgetD meta "generated_on" (.str "unknown"))) ::
    ("Container tool: " ++ pyStr (vgetD meta "container_tool" (.str "unknown"))) ::
    (if optTruthy (vget meta "title") then
      ["Title: " ++ pyStr (vgetD meta "title" .null)]
     else []) ++
    (if optTruthy (vget meta "description") then
      ["Description:", indentBlock (pyStr (vgetD meta "description" .null)) 2]
     else []) ++ [""]
  let defLines := definitionsLines (vgetD data "definitions" (.dict []))
  let mainLines :=
    "Main operation results:" ::
      ((pyIterItems (vgetD data "main_operation_results" (.list []))).map
        mainOpResultLines).flatten ++ [""]
  let dr := vgetD data "diff_reports" (.dict [])
  let rqLines :=
    "Filesystem diff (rq):" ::
      (pyIterItems (vgetD dr "filesystem_rq" (.list []))).map
        (fun it => "  - " ++ pyStr it) ++ [""]
  let urnLines :=
    "Filesystem diff (urN):" ::
      ((pyIterItems (vgetD dr "filesystem_urN" (.list []))).map urnBlockLines).flatten ++ [""]
  let cmdLines :=
    ((pyIterItems (vgetD dr "command_outputs" (.list []))).map commandOutputLines).flatten
  pyRstrip (joinWith '\n'
    (metaLines ++ defLines ++ mainLines ++ rqLines ++ urnLines ++ cmdLines)) ++ "\n"

/-- Copy-file entry list of a configuration: the sequence at
prepare.copy_files when prepare is a mapping holding one, otherwise
empty. -/
def copyEntriesOf (cfg : List (String × Val)) : List Val :=
  match dget cfg "prepare" with
  | some (.dict pm) =>
    match dget pm "copy_files" with
    | some (.list l) => l
    | _ => []
  | _ => []

/-- The src string of a copy-file entry, when the entry is a mapping with
a string src field. -/
def srcOf (e : Val) : Option String :=
  match e with
  | .dict m =>
    match dget m "src" with
    | some (.str s) => some s
    | _ => none
  | _ => none

/-- Sequence members of a value (empty for non-sequences). -/
def listItems : Val → List Val
  | .list l => l
  | _ => []

/-- All sequence members stored under any occurrence of a key in a pair
list (the occurrences a merge would process). -/
def listEntriesAt (d : List (String × Val)) (k : String) : List Val :=
  ((d.filter (fun kv => kv.1 == k)).map (fun kv => listItems kv.2)).flatten

/-- Copy-file entries held by one prepare value, counting every
occurrence of the copy_files key. -/
def prepEntriesVal : Val → List Val
  | .dict pm => listEntriesAt pm "copy_files"
  | _ => []

/-- All copy-file entries stored under any occurrence of prepare in a
pair list. For a mapping with unique keys this agrees with
copyEntriesOf. -/
def docCopyEntries (d : List (String × Val)) : List Val :=
  ((d.filter (fun kv => kv.1 == "prepare")).map (fun kv => prepEntriesVal kv.2)).flatten

/-- Copy-file entries a parsed document declares. -/
def docCopyEntriesVal : Val → List Val
  | .dict m => copyEntriesOf m
  | _ => []

/-- Extends chain a parsed document declares (empty when the document is
not a mapping or declares none). -/
def extendsOfDoc : Val → List String
  | .dict m => (extendsStrings ((dget m "extends").getD (.list []))).getD []
  | _ => []

/-- Reachability along the extends chain: the paths load_config visits
starting from a document path, each extends entry resolved against the
directory of the document that names it. -/
inductive Reaches (fs : List String → Option Val) : List String → List String → Prop where
  | refl (p : List String) : Reaches fs p p
  | step (p r : List String) (raw : Val) (ext : String) :
      fs p = some raw → ext ∈ extendsOfDoc raw →
      Reaches fs (resolveUnder p.dropLast ext) r → Reaches fs p r

/-- Well-formedness of a configuration mapping as PyYAML produces it:
top-level keys are unique, and so are the keys of a prepare mapping. -/
def cfgND (cfg : List (String × Val)) : Prop :=
  (dkeys cfg).Nodup ∧ ∀ pm, dget cfg "prepare" = some (.dict pm) → (dkeys pm).Nodup

/-- Well-formedness of a parsed document (trivial for non-mappings). -/
def docND : Val → Prop
  | .dict m => cfgND m
  | _ => True

/-- Boolean check of cfgND, for concrete documents. -/
def cfgNDb (cfg : List (String × Val)) : Bool :=
  decide (dkeys cfg).Nodup &&
    (match dget cfg "prepare" with
     | some (.dict pm) => decide (dkeys pm).Nodup
     | _ => true)

/-- Boolean check of docND, for concrete documents. -/
def docNDb : Val → Bool
  | .dict m => cfgNDb m
  | _ => true

/-- A path component that names an actual directory entry: nonempty, not
a dot or dot-dot link, and free of the separator. -/
def goodComp (c : String) : Prop :=
  c ≠ "" ∧ c ≠ "." ∧ c ≠ ".." ∧ ∀ ch ∈ c.data, ch ≠ '/'

/-- A component list all of whose components are plain directory
entries. -/
def goodPath (p : List String) : Prop := ∀ c ∈ p, goodComp c

instance : DecidablePred goodComp := fun c =>
  decidable_of_iff (c ≠ "" ∧ c ≠ "." ∧ c ≠ ".." ∧ ∀ ch ∈ c.data, ch ≠ '/') Iff.rfl

instance : DecidablePred goodPath := fun p =>
  decidable_of_iff (∀ c ∈ p, goodComp c) Iff.rfl

/-- Anchoring invariant of claim C1: every relative copy-file src in a
resolved configuration reached from p is the root-relative rendering of
a src that some document of the extends chain declared, and resolving it
against the root directory recovers exactly the file the declaring
document meant. -/
def anchored (fs : List String → Option Val) (p root : List String)
    (cfg : List (String × Val)) : Prop :=
  ∀ e ∈ copyEntriesOf cfg, ∀ s, srcOf e = some s → isAbsolute s = false →
  ∃ q raw e₀ s₀,
    Reaches fs p q ∧ fs q = some raw ∧
    e₀ ∈ docCopyEntriesVal raw ∧ srcOf e₀ = some s₀ ∧ isAbsolute s₀ = false ∧
    s = relpathStr (resolveUnder q.dropLast s₀) root ∧
    resolveUnder root s = resolveUnder q.dropLast s₀

/-- Concrete two-document filesystem for the extends merge example of the
spec: a base mapping and a child that extends it. -/
def fsC2 : List String → Option Val := fun p =>
  if p = ["d", "base.yml"] then
    some (.dict [("a", .int 1), ("list", .list [.int 1])])
  else if p = ["d", "child.yml"] then
    some (.dict [("extends", .list [.str "base.yml"]), ("list", .list [.int 2]),
                 ("b", .int 3)])
  else none

/-- Concrete two-document filesystem for the de-duplication example: the
merged target_dirs carry a duplicate that only the post-merge step
removes, while the list at another key keeps its duplicate. -/
def fsC5 : List String → Option Val := fun p =>
  if p = ["d", "b.yml"] then
    some (.dict [("target_dirs", .list [.str "a"]), ("other", .list [.str "x"])])
  else if p = ["d", "c.yml"] then
    some (.dict [("extends", .str "b.yml"), ("target_dirs", .list [.str "a", .str "b"]),
                 ("other", .list [.str "x"])])
  else none

/-- Concrete three-level extends chain (grandparent under a
subdirectory, parent above the root directory, child at the root) in
which every document declares a relative copy-file src. -/
def fsC1 : List String → Option Val := fun p =>
  if p = ["r", "sub", "gp.yml"] then
    some (.dict [("prepare", .dict [("copy_files",
      .list [.dict [("src", .str "gfile.txt"), ("dest", .str "/g")]])])])
  else if p = ["r", "par.yml"] then
    some (.dict [("extends", .str "sub/gp.yml"),
      ("prepare", .dict [("copy_files",
        .list [.dict [("src", .str "pfile.txt"), ("dest", .str "/p")]])])])
  else if p = ["r", "c", "child.yml"] then
    some (.dict [("extends", .list [.str "../par.yml"]),
      ("prepare", .dict [("copy_files",
        .list [.dict [("src", .str "cfile.txt"), ("dest", .str "/c")]])])])
  else none

/-- Concrete report value used to exercise the renderer. -/
def exampleReport : Val := .dict
  [("report_metadata", .dict [("generated_on", .str "2024-01-01 00:00:00"),
     ("container_tool", .str "podman"), ("title", .str "Example")]),
   ("definitions", .dict [("base_image", .str "img"),
     ("prepare", .dict [("copy_files", .list [.dict [("src", .str "a"), ("dest", .str "/b")]]),
       ("commands", .list [.str "c1"])]),
     ("target_dirs", .list [.str "/etc"])]),
   ("main_operation_results", .list [.dict [("command", .str "m"), ("return_code", .int 0),
      ("stdout", .str "out"), ("stderr", .str "")]]),
   ("diff_reports", .dict [("filesystem_rq", .list [.str "Files a and b differ"]),
     ("filesystem_urN", .list [.str "diff a b\n--- a\n+++ b"]),
     ("command_outputs", .list [.dict [("command", .str "x"), ("diff_file", .str "o"),
        ("diff_content", .str "dc")]])])]

/-! Association-list lemmas about the Python dict model. -/

theorem dkeys_nil : dkeys ([] : List (String × Val)) = [] := rfl

theorem dkeys_cons (k : String) (v : Val) (rest : List (String × Val)) :
    dkeys ((k, v) :: rest) = k :: dkeys rest := rfl

theorem derase_cons (k₀ : String) (v₀ : Val) (rest : List (String × Val)) (k : String) :
    derase ((k₀, v₀) :: rest) k =
      if k₀ = k then derase rest k else (k₀, v₀) :: derase rest k := by
  by_cases h : k₀ = k <;> simp [derase, List.filter_cons, h]

theorem dget_dset_self (d : List (String × Val)) (k : String) (v : Val) :
    dget (dset d k v) k = some v := by
  induction d with
  | nil => simp [dset, dget]
  | cons kv rest ih =>
    obtain ⟨k₀, v₀⟩ := kv
    by_cases h : k₀ = k
    · simp [dset, h, dget]
    · simp [dset, h, dget, ih]

theorem dget_dset_ne (d : List (String × Val)) (k k' : String) (v : Val) (h : k' ≠ k) :
    dget (dset d k v) k' = dget d k' := by
  induction d with
  | nil => simp [dset, dget, Ne.symm h]
  | cons kv rest ih =>
    obtain ⟨k₀, v₀⟩ := kv
    by_cases h₀ : k₀ = k
    · subst h₀
      simp [dset, dget, Ne.symm h]
    · simp [dset, h₀, dget, ih]

theorem dget_mem_dkeys {d : List (String × Val)} {k : String} {v : Val}
    (h : dget d k = some v) : k ∈ dkeys d := by
  induction d with
  | nil => simp [dget] at h
  | cons kv rest ih =>
    obtain ⟨k₀, v₀⟩ := kv
    by_cases h₀ : k₀ = k
    · simp [dkeys_cons, h₀]
    · simp [dget, h₀] at h
      simp [dkeys_cons]
      exact Or.inr (ih h)

theorem dget_eq_none_of_not_mem {d : List (String × Val)} {k : String}
    (h : k ∉ dkeys d) : dget d k = none := by
  induction d with
  | nil => simp [dget]
  | cons kv rest ih =>
    obtain ⟨k₀, v₀⟩ := kv
    simp [dkeys_cons] at h
    simp [dget, Ne.symm h.1, ih h.2]

theorem mem_dkeys_dset {d : List (String × Val)} {k x : String} {v : Val}
    (h : x ∈ dkeys (dset d k v)) : x ∈ dkeys d ∨ x = k := by
  induction d with
  | nil =>
    simp [dset, dkeys_cons, dkeys_nil] at h
    exact Or.inr h
  | cons kv rest ih =>
    obtain ⟨k₀, v₀⟩ := kv
    by_cases h₀ : k₀ = k
    · subst h₀
      simp [dset, dkeys_cons] at h
      simp [dkeys_cons]
      exact Or.inl h
    · simp [dset, h₀, dkeys_cons] at h
      simp [dkeys_cons]
      rcases h with h | h
      · exact Or.inl (Or.inl h)
      · rcases ih h with h | h
        · exact Or.inl (Or.inr h)
        · exact Or.inr h

theorem dkeys_dset_of_mem {d : List (String × Val)} {k : String} {w : Val} (v : Val)
    (h : dget d k = some w) : dkeys (dset d k v) = dkeys d := by
  induction d with
  | nil => simp [dget] at h
  | cons kv rest ih =>
    obtain ⟨k₀, v₀⟩ := kv
    by_cases h₀ : k₀ = k
    · subst h₀
      simp [dset, dkeys_cons]
    · simp [dget, h₀] at h
      simp [dset, h₀, dkeys_cons, ih h]

theorem dkeys_dset_nodup {d : List (String × Val)} {k : String} {v : Val}
    (h : (dkeys d).Nodup) : (dkeys (dset d k v)).Nodup := by
  induction d with
  | nil => simp [dset, dkeys_cons, dkeys_nil]
  | cons kv rest ih =>
    obtain ⟨k₀, v₀⟩ := kv
    simp [dkeys_cons, List.nodup_cons] at h
    by_cases h₀ : k₀ = k
    · subst h₀
      simp [dset, dkeys_cons, List.nodup_cons]
      exact ⟨h.1, h.2⟩
    · simp [dset, h₀, dkeys_cons, List.nodup_cons]
      refine ⟨fun hx => ?_, ih h.2⟩
      rcases mem_dkeys_dset hx with hh | hh
      · exact h.1 hh
      · exact h₀ hh

theorem dget_derase_ne {d : List (String × Val)} {k k' : String} (h : k' ≠ k) :
    dget (derase d k) k' = dget d k' := by
  induction d with
  | nil => simp [derase, dget]
  | cons kv rest ih =>
    obtain ⟨k₀, v₀⟩ := kv
    rw [derase_cons]
    by_cases h₀ : k₀ = k
    · simp [h₀, dget, Ne.symm h, ih]
    · simp [h₀, dget, ih]

theorem not_mem_dkeys_derase (d : List (String × Val)) (k : String) :
    k ∉ dkeys (derase d k) := by
  induction d with
  | nil => simp [derase, dkeys_nil]
  | cons kv rest ih =>
    obtain ⟨k₀, v₀⟩ := kv
    rw [derase_cons]
    by_cases h₀ : k₀ = k
    · simpa [h₀] using ih
    · simp [h₀, dkeys_cons]
      exact ⟨fun hh => h₀ hh.symm, ih⟩

theorem dkeys_derase_sublist (d : List (String × Val)) (k : String) :
    (dkeys (derase d k)).Sublist (dkeys d) := by
  unfold derase dkeys
  exact (List.filter_sublist d).map Prod.fst

theorem derase_mem_key {d : List (String × Val)} {k : String} {kv : String × Val}
    (h : kv ∈ derase d k) : kv ∈ d ∧ kv.1 ≠ k := by
  unfold derase at h
  have := List.of_mem_filter h
  exact ⟨List.mem_of_mem_filter h, by simpa using this⟩

/-! Lemmas about the merge of analysis._merge_dicts. -/

theorem mergeDicts_nil (base : List (String × Val)) : mergeDicts base [] = base := by
  simp [mergeDicts]

theorem mergeDicts_cons (base : List (String × Val)) (k : String) (v : Val)
    (rest : List (String × Val)) :
    mergeDicts base ((k, v) :: rest) =
      mergeDicts (dset base k (mergeOne (dget base k) v)) rest := by
  simp [mergeDicts]

theorem dget_mergeDicts_not_mem {n : List (String × Val)} {k : String}
    (h : k ∉ dkeys n) : ∀ b, dget (mergeDicts b n) k = dget b k := by
  induction n with
  | nil => intro b; simp [mergeDicts_nil]
  | cons kv rest ih =>
    intro b
    obtain ⟨k₀, v₀⟩ := kv
    simp [dkeys_cons] at h
    rw [mergeDicts_cons, ih h.2, dget_dset_ne]
    exact h.1

theorem dget_mergeDicts_some {n : List (String × Val)} {k : String} {v : Val}
    (hnd : (dkeys n).Nodup) (h : dget n k = some v) :
    ∀ b, dget (mergeDicts b n) k = some (mergeOne (dget b k) v) := by
  induction n with
  | nil => simp [dget] at h
  | cons kv rest ih =>
    intro b
    obtain ⟨k₀, v₀⟩ := kv
    simp [dkeys_cons, List.nodup_cons] at hnd
    by_cases h₀ : k₀ = k
    · subst h₀
      simp [dget] at h
      subst h
      rw [mergeDicts_cons, dget_mergeDicts_not_mem hnd.1, dget_dset_self]
    · simp [dget, h₀] at h
      rw [mergeDicts_cons, ih hnd.2 h, dget_dset_ne _ _ _ _ (fun hh => h₀ hh.symm)]

theorem dkeys_mergeDicts_nodup {n : List (String × Val)} :
    ∀ {b : List (String × Val)}, (dkeys b).Nodup → (dkeys (mergeDicts b n)).Nodup := by
  induction n with
  | nil => intro b h; simpa [mergeDicts_nil] using h
  | cons kv rest ih =>
    intro b h
    obtain ⟨k₀, v₀⟩ := kv
    rw [mergeDicts_cons]
    exact ih (dkeys_dset_nodup h)

theorem not_mem_dkeys_mergeDicts {n : List (String × Val)} {k : String}
    (hn : ∀ kv ∈ n, kv.1 ≠ k) :
    ∀ {b : List (String × Val)}, k ∉ dkeys b → k ∉ dkeys (mergeDicts b n) := by
  induction n with
  | nil => intro b h; simpa [mergeDicts_nil] using h
  | cons kv rest ih =>
    intro b h
    obtain ⟨k₀, v₀⟩ := kv
    rw [mergeDicts_cons]
    refine ih (fun kv hkv => hn kv (by simp [hkv])) (fun hmem => ?_)
    rcases mem_dkeys_dset hmem with hh | hh
    · exact h hh
    · exact hn (k₀, v₀) (by simp) hh.symm

/-! Shape lemmas for the one-key merge step. -/

theorem mergeOne_list_eq (o : Option Val) (l : List Val) :
    mergeOne o (.list l) =
      .list ((match o with | some (.list e) => e | _ => []) ++ l) := by
  rcases o with _ | w
  · simp [mergeOne]
  · cases w <;> simp [mergeOne]

theorem mergeOne_dict_eq (o : Option Val) (m : List (String × Val)) :
    mergeOne o (.dict m) =
      .dict (mergeDicts (match o with | some (.dict bm) => bm | _ => []) m) := by
  rcases o with _ | w
  · simp [mergeOne]
  · cases w <;> simp [mergeOne]

theorem mergeOne_scalar (o : Option Val) (v : Val)
    (h₁ : ∀ l, v ≠ .list l) (h₂ : ∀ m, v ≠ .dict m) : mergeOne o v = v := by
  cases v with
  | list l => exact absurd rfl (h₁ l)
  | dict m => exact absurd rfl (h₂ m)
  | null => simp [mergeOne]
  | bool b => simp [mergeOne]
  | int n => simp [mergeOne]
  | str s => simp [mergeOne]

/-! Membership lemmas tracing merged sequence members to their source. -/

theorem listEntriesAt_cons (k₁ : String) (v₁ : Val) (rest : List (String × Val))
    (k : String) :
    listEntriesAt ((k₁, v₁) :: rest) k =
      (if k₁ = k then listItems v₁ else []) ++ listEntriesAt rest k := by
  by_cases h : k₁ = k <;> simp [listEntriesAt, List.filter_cons, h]

theorem docCopyEntries_cons (k₁ : String) (v₁ : Val) (rest : List (String × Val)) :
    docCopyEntries ((k₁, v₁) :: rest) =
      (if k₁ = "prepare" then prepEntriesVal v₁ else []) ++ docCopyEntries rest := by
  by_cases h : k₁ = "prepare" <;> simp [docCopyEntries, List.filter_cons, h]

theorem mem_listItems_mergeOne {x : Val} {o : Option Val} {v : Val}
    (hx : x ∈ listItems (mergeOne o v)) :
    (∃ w₀, o = some w₀ ∧ x ∈ listItems w₀) ∨ x ∈ listItems v := by
  cases v with
  | list l =>
    rw [mergeOne_list_eq] at hx
    simp [listItems] at hx
    rcases hx with hx | hx
    · rcases o with _ | w
      · simp at hx
      · cases w <;> simp at hx
        case list e => exact Or.inl ⟨.list e, rfl, by simpa [listItems] using hx⟩
    · exact Or.inr (by simpa [listItems] using hx)
  | dict m => rw [mergeOne_dict_eq] at hx; simp [listItems] at hx
  | null => simp [mergeOne, listItems] at hx
  | bool b => simp [mergeOne, listItems] at hx
  | int n => simp [mergeOne, listItems] at hx
  | str s => simp [mergeOne, listItems] at hx

theorem mem_listItems_mergeDicts {k : String} {x : Val} :
    ∀ (n a : List (String × Val)) (w : Val),
      dget (mergeDicts a n) k = some w → x ∈ listItems w →
      (∃ w₀, dget a k = some w₀ ∧ x ∈ listItems w₀) ∨ x ∈ listEntriesAt n k := by
  intro n
  induction n with
  | nil =>
    intro a w h hx
    rw [mergeDicts_nil] at h
    exact Or.inl ⟨w, h, hx⟩
  | cons kv rest ih =>
    intro a w h hx
    obtain ⟨k₀, v₀⟩ := kv
    rw [mergeDicts_cons] at h
    rcases ih _ w h hx with ⟨w₀, hw₀, hxw⟩ | hmem
    · by_cases h₀ : k₀ = k
      · subst h₀
        rw [dget_dset_self] at hw₀
        have hw : w₀ = mergeOne (dget a k₀) v₀ := by injection hw₀ with hh; exact hh.symm
        subst hw
        rcases mem_listItems_mergeOne hxw with ⟨w₁, hw₁, hxw₁⟩ | hxv
        · exact Or.inl ⟨w₁, hw₁, hxw₁⟩
        · rw [listEntriesAt_cons]
          simp
          exact Or.inr (Or.inl hxv)
      · rw [dget_dset_ne _ _ _ _ (fun hh => h₀ hh.symm)] at hw₀
        exact Or.inl ⟨w₀, hw₀, hxw⟩
    · rw [listEntriesAt_cons]
      simp
      exact Or.inr (Or.inr hmem)

theorem mem_copyEntriesOf {cfg : List (String × Val)} {e : Val}
    (h : e ∈ copyEntriesOf cfg) :
    ∃ pm w, dget cfg "prepare" = some (.dict pm) ∧
      dget pm "copy_files" = some w ∧ e ∈ listItems w := by
  unfold copyEntriesOf at h
  rcases hp : dget cfg "prepare" with _ | v <;> rw [hp] at h
  · simp at h
  · cases v <;> try simp at h
    case dict pm =>
    rcases hc : dget pm "copy_files" with _ | w <;> rw [hc] at h
    · simp at h
    · cases w <;> try simp at h
      case list l => exact ⟨pm, .list l, rfl, hc, by simpa [listItems] using h⟩

theorem mem_copyEntriesOf_mergeDicts {e : Val} :
    ∀ (n a : List (String × Val)), e ∈ copyEntriesOf (mergeDicts a n) →
      e ∈ copyEntriesOf a ∨ e ∈ docCopyEntries n := by
  intro n
  induction n with
  | nil =>
    intro a h
    rw [mergeDicts_nil] at h
    exact Or.inl h
  | cons kv rest ih =>
    intro a h
    obtain ⟨k₀, v₀⟩ := kv
    rw [mergeDicts_cons] at h
    rcases ih _ h with hmem | hmem
    · by_cases h₀ : k₀ = "prepare"
      · subst h₀
        obtain ⟨pm, w, hpm, hw, hew⟩ := mem_copyEntriesOf hmem
        rw [dget_dset_self] at hpm
        cases v₀ with
        | dict m =>
          rw [mergeOne_dict_eq] at hpm
          have hpm' : pm = mergeDicts
              (match dget a "prepare" with | some (.dict bm) => bm | _ => []) m := by
            injection hpm with hh
            injection hh with hh₂
            exact hh₂.symm
          subst hpm'
          rcases mem_listItems_mergeDicts m _ w hw hew with ⟨w₀, hw₀, hxw⟩ | hx
          · rcases hb : dget a "prepare" with _ | b <;> rw [hb] at hw₀
            · simp [dget] at hw₀
            · cases b <;> try simp [dget] at hw₀
              rename_i bm
              left
              unfold copyEntriesOf
              rw [hb]
              show e ∈ (match dget bm "copy_files" with
                | some (Val.list l) => l
                | _ => [])
              rw [hw₀]
              cases w₀ <;> simp [listItems] at hxw ⊢
              exact hxw
          · right
            rw [docCopyEntries_cons]
            simp [prepEntriesVal]
            exact Or.inl hx
        | list l =>
          rw [mergeOne_list_eq] at hpm
          simp at hpm
        | null => simp [mergeOne] at hpm
        | bool b => simp [mergeOne] at hpm
        | int n => simp [mergeOne] at hpm
        | str s => simp [mergeOne] at hpm
      · left
        have : dget (dset a k₀ (mergeOne (dget a k₀) v₀)) "prepare" = dget a "prepare" :=
          dget_dset_ne _ _ _ _ (fun hh => h₀ hh.symm)
        unfold copyEntriesOf at hmem ⊢
        rw [this] at hmem
        exact hmem
    · right
      rw [docCopyEntries_cons]
      simp
      exact Or.inr hmem

/-! Preservation of the unique-key well-formedness through the merge. -/

theorem cfgND_nil : cfgND ([] : List (String × Val)) := by
  constructor
  · simp [dkeys_nil]
  · intro pm h
    simp [dget] at h

theorem cfgND_mergeDicts {b : List (String × Val)} :
    ∀ {a : List (String × Val)}, cfgND a → cfgND (mergeDicts a b) := by
  induction b with
  | nil => intro a h; simpa [mergeDicts_nil] using h
  | cons kv rest ih =>
    intro a ha
    obtain ⟨k₀, v₀⟩ := kv
    rw [mergeDicts_cons]
    refine ih ⟨dkeys_dset_nodup ha.1, ?_⟩
    intro pm hpm
    by_cases h₀ : k₀ = "prepare"
    · subst h₀
      rw [dget_dset_self] at hpm
      cases v₀ with
      | dict m =>
        rw [mergeOne_dict_eq] at hpm
        have hpm' : pm = mergeDicts
            (match dget a "prepare" with | some (.dict bm) => bm | _ => []) m := by
          injection hpm with hh
          injection hh with hh₂
          exact hh₂.symm
        subst hpm'
        rcases hb : dget a "prepare" with _ | b
        · exact dkeys_mergeDicts_nodup (b := []) (by simp [dkeys_nil])
        · cases b with
          | dict bm => exact dkeys_mergeDicts_nodup (ha.2 bm hb)
          | null => exact dkeys_mergeDicts_nodup (b := []) (by simp [dkeys_nil])
          | bool c => exact dkeys_mergeDicts_nodup (b := []) (by simp [dkeys_nil])
          | int n => exact dkeys_mergeDicts_nodup (b := []) (by simp [dkeys_nil])
          | str s => exact dkeys_mergeDicts_nodup (b := []) (by simp [dkeys_nil])
          | list l => exact dkeys_mergeDicts_nodup (b := []) (by simp [dkeys_nil])
      | list l => rw [mergeOne_list_eq] at hpm; simp at hpm
      | null => simp [mergeOne] at hpm
      | bool c => simp [mergeOne] at hpm
      | int n => simp [mergeOne] at hpm
      | str s => simp [mergeOne] at hpm
    · rw [dget_dset_ne _ _ _ _ (fun hh => h₀ hh.symm)] at hpm
      exact ha.2 pm hpm

/-! With unique keys the all-occurrence entry view collapses to the
first-occurrence one. -/

theorem filter_key_of_none {d : List (String × Val)} {k : String}
    (h : dget d k = none) : d.filter (fun kv => kv.1 == k) = [] := by
  induction d with
  | nil => simp
  | cons kv rest ih =>
    obtain ⟨k₀, v₀⟩ := kv
    by_cases h₀ : k₀ = k
    · simp [dget, h₀] at h
    · simp [dget, h₀] at h
      simp [List.filter_cons, h₀, ih h]

theorem filter_key_of_nodup {d : List (String × Val)} {k : String} {v : Val}
    (hnd : (dkeys d).Nodup) (h : dget d k = some v) :
    d.filter (fun kv => kv.1 == k) = [(k, v)] := by
  induction d with
  | nil => simp [dget] at h
  | cons kv rest ih =>
    obtain ⟨k₀, v₀⟩ := kv
    simp [dkeys_cons, List.nodup_cons] at hnd
    by_cases h₀ : k₀ = k
    · subst h₀
      simp [dget] at h
      subst h
      have : dget rest k₀ = none := dget_eq_none_of_not_mem hnd.1
      simp [List.filter_cons, filter_key_of_none this]
    · simp [dget, h₀] at h
      simp [List.filter_cons, h₀, ih hnd.2 h]

theorem docCopyEntries_eq_copyEntriesOf {cfg : List (String × Val)}
    (h : cfgND cfg) : docCopyEntries cfg = copyEntriesOf cfg := by
  unfold docCopyEntries copyEntriesOf
  rcases hp : dget cfg "prepare" with _ | v
  · rw [filter_key_of_none hp]
    simp
  · rw [filter_key_of_nodup h.1 hp]
    cases v <;> simp [prepEntriesVal]
    case dict pm =>
    unfold listEntriesAt
    rcases hc : dget pm "copy_files" with _ | w
    · rw [filter_key_of_none hc]
      simp
    · rw [filter_key_of_nodup (h.2 pm hp) hc]
      cases w <;> simp [listItems]

/-! Path algebra: splitting, joining, normalization, relative paths. -/

theorem splitCharAux_no_sep (sep : Char) :
    ∀ (cs cur : List Char), (∀ ch ∈ cur, ch ≠ sep) →
      ∀ part ∈ splitCharAux sep cs cur, ∀ ch ∈ part, ch ≠ sep := by
  intro cs
  induction cs with
  | nil =>
    intro cur hcur part hpart ch hch
    simp [splitCharAux] at hpart
    subst hpart
    exact hcur ch (by simpa using hch)
  | cons c rest ih =>
    intro cur hcur part hpart ch hch
    by_cases hc : c = sep
    · simp [splitCharAux, hc] at hpart
      rcases hpart with hpart | hpart
      · subst hpart
        exact hcur ch (by simpa using hch)
      · exact ih [] (by simp) part hpart ch hch
    · simp [splitCharAux, hc] at hpart
      refine ih (c :: cur) ?_ part hpart ch hch
      intro ch' hch'
      rcases List.mem_cons.mp hch' with h | h
      · subst h; exact hc
      · exact hcur ch' h

theorem splitCharAux_append_no_sep (sep : Char) :
    ∀ (x cs cur : List Char), (∀ ch ∈ x, ch ≠ sep) →
      splitCharAux sep (x ++ cs) cur = splitCharAux sep cs (x.reverse ++ cur) := by
  intro x
  induction x with
  | nil => intro cs cur _; simp
  | cons c rest ih =>
    intro cs cur hx
    have hc : c ≠ sep := hx c (by simp)
    simp only [List.cons_append, splitCharAux]
    rw [if_neg hc, List.append_eq, ih cs (c :: cur) (fun ch hch => hx ch (by simp [hch]))]
    simp

theorem splitCharAux_joinSep (sep : Char) :
    ∀ parts : List (List Char), parts ≠ [] →
      (∀ part ∈ parts, ∀ ch ∈ part, ch ≠ sep) →
      splitCharAux sep (joinSep sep parts) [] = parts := by
  intro parts
  induction parts with
  | nil => intro h; exact absurd rfl h
  | cons x rest ih =>
    intro _ hsep
    cases rest with
    | nil =>
      have hx : ∀ ch ∈ x, ch ≠ sep := hsep x (by simp)
      have := splitCharAux_append_no_sep sep x [] [] hx
      simp at this
      simpa [joinSep, splitCharAux] using this
    | cons y rest₂ =>
      have hx : ∀ ch ∈ x, ch ≠ sep := hsep x (by simp)
      simp only [joinSep]
      rw [splitCharAux_append_no_sep sep x _ [] hx]
      simp only [splitCharAux, if_pos rfl]
      rw [ih (by simp) (fun part hp => hsep part (by simp [hp]))]
      simp

theorem string_mk_data (s : String) : String.mk s.data = s := rfl

theorem splitSlash_joinWith (parts : List String) (h₀ : parts ≠ [])
    (h : ∀ part ∈ parts, ∀ ch ∈ part.data, ch ≠ '/') :
    splitSlash (joinWith '/' parts) = parts := by
  unfold splitSlash joinWith
  have hd : (String.mk (joinSep '/' (parts.map String.data))).data =
      joinSep '/' (parts.map String.data) := rfl
  rw [hd, splitCharAux_joinSep '/' (parts.map String.data)
    (by simpa using h₀)
    (by
      intro part hpart ch hch
      rcases List.mem_map.mp hpart with ⟨p, hp, hpd⟩
      exact h p hp ch (hpd ▸ hch))]
  rw [List.map_map]
  have : (String.mk ∘ String.data) = id := by
    funext s
    exact string_mk_data s
  rw [this, List.map_id]

theorem joinSep_cons (sep : Char) (x : List Char) (rest : List (List Char)) :
    joinSep sep (x :: rest) =
      x ++ (if rest.isEmpty then [] else sep :: joinSep sep rest) := by
  cases rest <;> simp [joinSep]

theorem foldl_normStep_mem :
    ∀ (l acc : List String) (x : String), x ∈ l.foldl normStep acc → x ∈ acc ∨ x ∈ l := by
  intro l
  induction l with
  | nil => intro acc x h; exact Or.inl (by simpa using h)
  | cons c rest ih =>
    intro acc x h
    simp only [List.foldl_cons] at h
    rcases ih _ x h with h | h
    · unfold normStep at h
      split at h
      · exact Or.inl h
      · split at h
        · exact Or.inl ((List.dropLast_sublist _).subset h)
        · rcases List.mem_append.mp h with h | h
          · exact Or.inl h
          · simp at h
            subst h
            exact Or.inr (by simp)
    · exact Or.inr (by simp [h])

theorem foldl_normStep_notSpecial :
    ∀ (l acc : List String), (∀ x ∈ acc, x ≠ "" ∧ x ≠ "." ∧ x ≠ "..") →
      ∀ x ∈ l.foldl normStep acc, x ≠ "" ∧ x ≠ "." ∧ x ≠ ".." := by
  intro l
  induction l with
  | nil => intro acc hacc x hx; exact hacc x (by simpa using hx)
  | cons c rest ih =>
    intro acc hacc x hx
    simp only [List.foldl_cons] at hx
    refine ih _ ?_ x hx
    intro y hy
    unfold normStep at hy
    split at hy
    · exact hacc y hy
    · split at hy
      · exact hacc y ((List.dropLast_sublist _).subset hy)
      · rcases List.mem_append.mp hy with h | h
        · exact hacc y h
        · simp at h
          subst h
          rename_i h₁ h₂
          simp at h₁
          exact ⟨h₁.1, h₁.2, h₂⟩

theorem foldl_normStep_plain :
    ∀ (l acc : List String), (∀ x ∈ l, x ≠ "" ∧ x ≠ "." ∧ x ≠ "..") →
      l.foldl normStep acc = acc ++ l := by
  intro l
  induction l with
  | nil => intro acc _; simp
  | cons c rest ih =>
    intro acc h
    have hc := h c (by simp)
    simp only [List.foldl_cons]
    have hstep : normStep acc c = acc ++ [c] := by
      unfold normStep
      simp [hc.1, hc.2.1, hc.2.2]
    rw [hstep, ih _ (fun x hx => h x (by simp [hx]))]
    simp

theorem foldl_normStep_dotdot :
    ∀ (k : Nat) (acc : List String),
      List.foldl normStep acc (List.replicate k "..") = acc.take (acc.length - k) := by
  intro k
  induction k with
  | zero => intro acc; simp
  | succ k ih =>
    intro acc
    simp only [List.replicate_succ, List.foldl_cons]
    have hstep : normStep acc ".." = acc.dropLast := by unfold normStep; simp
    rw [hstep, ih]
    rw [List.dropLast_eq_take]
    rw [List.take_take]
    congr 1
    have hlen : (acc.length - 1 - k) ≤ acc.length - 1 := Nat.sub_le _ _
    rw [List.length_take]
    omega

theorem commonPrefixLen_le_left :
    ∀ a b : List String, commonPrefixLen a b ≤ a.length := by
  intro a
  induction a with
  | nil => intro b; cases b <;> simp [commonPrefixLen]
  | cons x xs ih =>
    intro b
    cases b with
    | nil => simp [commonPrefixLen]
    | cons y ys =>
      by_cases h : x = y <;> simp [commonPrefixLen, h]
      exact ih ys

theorem commonPrefixLen_le_right :
    ∀ a b : List String, commonPrefixLen a b ≤ b.length := by
  intro a
  induction a with
  | nil => intro b; cases b <;> simp [commonPrefixLen]
  | cons x xs ih =>
    intro b
    cases b with
    | nil => simp [commonPrefixLen]
    | cons y ys =>
      by_cases h : x = y <;> simp [commonPrefixLen, h]
      exact ih ys

theorem take_commonPrefixLen_eq :
    ∀ a b : List String, a.take (commonPrefixLen a b) = b.take (commonPrefixLen a b) := by
  intro a
  induction a with
  | nil => intro b; cases b <;> simp [commonPrefixLen]
  | cons x xs ih =>
    intro b
    cases b with
    | nil => simp [commonPrefixLen]
    | cons y ys =>
      by_cases h : x = y <;> simp [commonPrefixLen, h]
      exact ih ys

theorem normComps_append_relParts {t r : List String}
    (ht : ∀ x ∈ t, x ≠ "" ∧ x ≠ "." ∧ x ≠ "..")
    (hr : ∀ x ∈ r, x ≠ "" ∧ x ≠ "." ∧ x ≠ "..") :
    normComps (r ++ relParts t r) = t := by
  unfold normComps relParts
  rw [List.foldl_append, List.foldl_append]
  rw [foldl_normStep_plain r [] hr]
  simp only [List.nil_append]
  rw [foldl_normStep_dotdot]
  have hle : commonPrefixLen t r ≤ r.length := commonPrefixLen_le_right t r
  have harith : r.length - (r.length - commonPrefixLen t r) = commonPrefixLen t r := by
    omega
  rw [harith]
  rw [foldl_normStep_plain _ _ (fun x hx => ht x (List.mem_of_mem_drop hx))]
  rw [← take_commonPrefixLen_eq]
  exact List.take_append_drop _ t

theorem relParts_nil_imp {t r : List String} (h : relParts t r = []) : t = r := by
  unfold relParts at h
  rcases List.append_eq_nil.mp h with ⟨h₁, h₂⟩
  have hle : commonPrefixLen t r ≤ r.length := commonPrefixLen_le_right t r
  have hlt : commonPrefixLen t r ≤ t.length := commonPrefixLen_le_left t r
  have hrep : r.length - commonPrefixLen t r = 0 := by
    by_contra hne
    simp [List.replicate_eq_nil_iff] at h₁
    omega
  have hdrop : t.length ≤ commonPrefixLen t r := by
    by_contra hne
    have := List.drop_eq_nil_iff.mp h₂
    omega
  have hti : commonPrefixLen t r = t.length := le_antisymm hlt hdrop
  have hri : commonPrefixLen t r = r.length := by omega
  calc t = t.take (commonPrefixLen t r) := by rw [hti, List.take_length]
    _ = r.take (commonPrefixLen t r) := take_commonPrefixLen_eq t r
    _ = r := by rw [hri, List.take_length]

theorem goodComp_notSpecial {c : String} (h : goodComp c) :
    c ≠ "" ∧ c ≠ "." ∧ c ≠ ".." := ⟨h.1, h.2.1, h.2.2.1⟩

theorem goodPath_notSpecial {p : List String} (h : goodPath p) :
    ∀ x ∈ p, x ≠ "" ∧ x ≠ "." ∧ x ≠ ".." := fun x hx => goodComp_notSpecial (h x hx)

theorem splitSlash_no_slash (s : String) :
    ∀ part ∈ splitSlash s, ∀ ch ∈ part.data, ch ≠ '/' := by
  intro part hpart ch hch
  unfold splitSlash at hpart
  rcases List.mem_map.mp hpart with ⟨pl, hpl, hmk⟩
  have hd : part.data = pl := by rw [← hmk]
  exact splitCharAux_no_sep '/' s.data [] (by simp) pl hpl ch (hd ▸ hch)

theorem goodPath_normComps_append {dir : List String} {parts : List String}
    (hdir : goodPath dir)
    (hparts : ∀ part ∈ parts, ∀ ch ∈ part.data, ch ≠ '/') :
    goodPath (normComps (dir ++ parts)) := by
  intro x hx
  have hns := foldl_normStep_notSpecial (dir ++ parts) [] (by simp) x hx
  have hmem := foldl_normStep_mem (dir ++ parts) [] x hx
  simp at hmem
  rcases hmem with hmem | hmem
  · exact hdir x hmem
  · exact ⟨hns.1, hns.2.1, hns.2.2, hparts x hmem⟩

theorem goodPath_resolveUnder {dir : List String} (s : String) (hdir : goodPath dir) :
    goodPath (resolveUnder dir s) := by
  unfold resolveUnder
  split
  · have := @goodPath_normComps_append [] (splitSlash s)
      (by intro c hc; simp at hc) (splitSlash_no_slash s)
    simpa using this
  · exact goodPath_normComps_append hdir (splitSlash_no_slash s)

theorem normComps_of_good {l : List String} (h : goodPath l) : normComps l = l := by
  unfold normComps
  rw [foldl_normStep_plain l [] (goodPath_notSpecial h)]
  simp

theorem mem_relParts {t r : List String} :
    ∀ x ∈ relParts t r, x = ".." ∨ x ∈ t := by
  intro x hx
  unfold relParts at hx
  rcases List.mem_append.mp hx with h | h
  · exact Or.inl (List.eq_of_mem_replicate h)
  · exact Or.inr (List.mem_of_mem_drop h)

theorem relParts_no_slash {t r : List String} (ht : goodPath t) :
    ∀ part ∈ relParts t r, ∀ ch ∈ part.data, ch ≠ '/' := by
  intro part hpart ch hch
  rcases mem_relParts part hpart with h | h
  · subst h
    simp at hch
    subst hch
    decide
  · exact (ht part h).2.2.2 ch hch

theorem relParts_ne_empty {t r : List String} (ht : goodPath t) :
    ∀ part ∈ relParts t r, part ≠ "" := by
  intro part hpart
  rcases mem_relParts part hpart with h | h
  · subst h; decide
  · exact (ht part h).1

theorem isAbsolute_eq_false_of_head {s : String} {c : Char}
    (h : s.data.head? = some c) (hc : c ≠ '/') : isAbsolute s = false := by
  unfold isAbsolute
  split
  · rename_i heq
    rw [heq] at h
    simp at h
    exact absurd h.symm hc
  · rfl

theorem data_ne_nil_of_ne_empty {s : String} (h : s ≠ "") : s.data ≠ [] := by
  intro hd
  apply h
  have : s = String.mk s.data := (string_mk_data s).symm
  rw [this, hd]

theorem isAbsolute_joinWith {p : String} {rest : List String} (hne : p ≠ "")
    (hns : ∀ ch ∈ p.data, ch ≠ '/') :
    isAbsolute (joinWith '/' (p :: rest)) = false := by
  rcases hq : p.data with _ | ⟨c, cs⟩
  · exact absurd hq (data_ne_nil_of_ne_empty hne)
  · refine isAbsolute_eq_false_of_head (c := c) ?_ (hns c (by simp [hq]))
    show (joinSep '/' ((p :: rest).map String.data)).head? = some c
    rw [List.map_cons, joinSep_cons, List.head?_append]
    simp [hq]

theorem resolveUnder_relpathStr {t r : List String} (ht : goodPath t) (hr : goodPath r) :
    resolveUnder r (relpathStr t r) = t := by
  have hnt : normComps t = t := normComps_of_good ht
  have hnr : normComps r = r := normComps_of_good hr
  unfold relpathStr
  rw [hnt, hnr]
  rcases hrp : relParts t r with _ | ⟨p, ps⟩
  · have hteq : t = r := relParts_nil_imp hrp
    unfold resolveUnder
    have habs : isAbsolute "." = false := by decide
    rw [habs]
    simp only [Bool.false_eq_true, if_false]
    have hsplit : splitSlash "." = ["."] := by decide
    rw [hsplit]
    unfold normComps
    rw [List.foldl_append, foldl_normStep_plain r [] (goodPath_notSpecial hr)]
    simp only [List.nil_append, List.foldl_cons, List.foldl_nil]
    have : normStep r "." = r := by unfold normStep; simp
    rw [this, hteq]
  · have hphead : (relParts t r).head? = some p := by rw [hrp]; rfl
    have hpmem : p ∈ relParts t r := by rw [hrp]; simp
    have hpne : p ≠ "" := relParts_ne_empty ht p hpmem
    have hpns : ∀ ch ∈ p.data, ch ≠ '/' := relParts_no_slash ht p hpmem
    have habs : isAbsolute (joinWith '/' (p :: ps)) = false :=
      isAbsolute_joinWith hpne hpns
    unfold resolveUnder
    rw [habs]
    simp only [Bool.false_eq_true, if_false]
    rw [← hrp]
    rw [splitSlash_joinWith _ (by rw [hrp]; simp) (relParts_no_slash ht)]
    exact normComps_append_relParts (goodPath_notSpecial ht) (goodPath_notSpecial hr)

theorem goodPath_dropLast {p : List String} (h : goodPath p) : goodPath p.dropLast :=
  fun c hc => h c ((List.dropLast_sublist _).subset hc)

/-! Lemmas about the per-document path rewriting. -/

theorem rewriteEntry_spec {base root : List String} {e : Val} {s : String}
    (h : srcOf (rewriteEntry base root e) = some s) (habs : isAbsolute s = false) :
    ∃ s₀, srcOf e = some s₀ ∧ isAbsolute s₀ = false ∧
      s = relpathStr (resolveUnder base s₀) root := by
  cases e with
  | dict m =>
    rcases hsrc : dget m "src" with _ | w
    · simp [rewriteEntry, srcOf, hsrc] at h
    · cases w with
      | str s₀ =>
        by_cases habs₀ : isAbsolute s₀ = true
        · simp [rewriteEntry, srcOf, hsrc, habs₀] at h
          rw [h] at habs₀
          rw [habs₀] at habs
          exact absurd habs (by simp)
        · simp [rewriteEntry, srcOf, hsrc, habs₀, dget_dset_self] at h
          exact ⟨s₀, by simp [srcOf, hsrc], by simpa using habs₀, h.symm⟩
      | null => simp [rewriteEntry, srcOf, hsrc] at h
      | bool c => simp [rewriteEntry, srcOf, hsrc] at h
      | int n => simp [rewriteEntry, srcOf, hsrc] at h
      | list l => simp [rewriteEntry, srcOf, hsrc] at h
      | dict mm => simp [rewriteEntry, srcOf, hsrc] at h
  | null => simp [rewriteEntry, srcOf] at h
  | bool c => simp [rewriteEntry, srcOf] at h
  | int n => simp [rewriteEntry, srcOf] at h
  | str s₁ => simp [rewriteEntry, srcOf] at h
  | list l => simp [rewriteEntry, srcOf] at h

theorem copyEntriesOf_resolveRelativePaths (cfg : List (String × Val))
    (base root : List String) :
    copyEntriesOf (resolveRelativePaths cfg base root) =
      (copyEntriesOf cfg).map (rewriteEntry base root) := by
  rcases hp : dget cfg "prepare" with _ | v
  · simp [resolveRelativePaths, copyEntriesOf, hp]
  · cases v with
    | dict pm =>
      rcases hc : dget pm "copy_files" with _ | w
      · simp [resolveRelativePaths, copyEntriesOf, hp, hc]
      · cases w with
        | list entries =>
          simp only [resolveRelativePaths, hp, hc]
          unfold copyEntriesOf
          simp only [dget_dset_self, hp, hc]
        | null => simp [resolveRelativePaths, copyEntriesOf, hp, hc]
        | bool c => simp [resolveRelativePaths, copyEntriesOf, hp, hc]
        | int n => simp [resolveRelativePaths, copyEntriesOf, hp, hc]
        | str s => simp [resolveRelativePaths, copyEntriesOf, hp, hc]
        | dict mm => simp [resolveRelativePaths, copyEntriesOf, hp, hc]
    | null => simp [resolveRelativePaths, copyEntriesOf, hp]
    | bool c => simp [resolveRelativePaths, copyEntriesOf, hp]
    | int n => simp [resolveRelativePaths, copyEntriesOf, hp]
    | str s => simp [resolveRelativePaths, copyEntriesOf, hp]
    | list l => simp [resolveRelativePaths, copyEntriesOf, hp]

theorem dget_resolveRelativePaths_ne {cfg : List (String × Val)} {base root : List String}
    {k : String} (h : k ≠ "prepare") :
    dget (resolveRelativePaths cfg base root) k = dget cfg k := by
  rcases hp : dget cfg "prepare" with _ | v
  · simp [resolveRelativePaths, hp]
  · cases v with
    | dict pm =>
      rcases hc : dget pm "copy_files" with _ | w
      · simp [resolveRelativePaths, hp, hc]
      · cases w with
        | list entries =>
          simp only [resolveRelativePaths, hp, hc]
          exact dget_dset_ne _ _ _ _ h
        | null => simp [resolveRelativePaths, hp, hc]
        | bool c => simp [resolveRelativePaths, hp, hc]
        | int n => simp [resolveRelativePaths, hp, hc]
        | str s => simp [resolveRelativePaths, hp, hc]
        | dict mm => simp [resolveRelativePaths, hp, hc]
    | null => simp [resolveRelativePaths, hp]
    | bool c => simp [resolveRelativePaths, hp]
    | int n => simp [resolveRelativePaths, hp]
    | str s => simp [resolveRelativePaths, hp]
    | list l => simp [resolveRelativePaths, hp]

theorem cfgND_resolveRelativePaths {cfg : List (String × Val)} {base root : List String}
    (h : cfgND cfg) : cfgND (resolveRelativePaths cfg base root) := by
  rcases hp : dget cfg "prepare" with _ | v
  · simpa [resolveRelativePaths, hp] using h
  · cases v with
    | dict pm =>
      rcases hc : dget pm "copy_files" with _ | w
      · simpa [resolveRelativePaths, hp, hc] using h
      · cases w with
        | list entries =>
          simp only [resolveRelativePaths, hp, hc]
          constructor
          · rw [dkeys_dset_of_mem _ hp]
            exact h.1
          · intro pm₁ hpm₁
            rw [dget_dset_self] at hpm₁
            have : pm₁ = dset pm "copy_files" (.list (entries.map (rewriteEntry base root))) := by
              injection hpm₁ with hh
              injection hh with hh₂
              exact hh₂.symm
            subst this
            rw [dkeys_dset_of_mem _ hc]
            exact h.2 pm hp
        | null => simpa [resolveRelativePaths, hp, hc] using h
        | bool c => simpa [resolveRelativePaths, hp, hc] using h
        | int n => simpa [resolveRelativePaths, hp, hc] using h
        | str s => simpa [resolveRelativePaths, hp, hc] using h
        | dict mm => simpa [resolveRelativePaths, hp, hc] using h
    | null => simpa [resolveRelativePaths, hp] using h
    | bool c => simpa [resolveRelativePaths, hp] using h
    | int n => simpa [resolveRelativePaths, hp] using h
    | str s => simpa [resolveRelativePaths, hp] using h
    | list l => simpa [resolveRelativePaths, hp] using h

/-! Preservation through the extends removal, title normalization and
list de-duplication. -/

theorem docCopyEntries_derase {cfg : List (String × Val)} {k : String}
    (h : k ≠ "prepare") : docCopyEntries (derase cfg k) = docCopyEntries cfg := by
  induction cfg with
  | nil => rfl
  | cons kv rest ih =>
    obtain ⟨k₀, v₀⟩ := kv
    rw [derase_cons]
    by_cases h₀ : k₀ = k
    · rw [if_pos h₀, docCopyEntries_cons, if_neg (by rw [h₀]; exact h), ih]
      simp
    · rw [if_neg h₀, docCopyEntries_cons, docCopyEntries_cons, ih]

theorem cfgND_derase {cfg : List (String × Val)} {k : String}
    (h : cfgND cfg) (hk : k ≠ "prepare") : cfgND (derase cfg k) := by
  constructor
  · exact h.1.sublist (dkeys_derase_sublist cfg k)
  · intro pm hpm
    rw [dget_derase_ne (Ne.symm hk)] at hpm
    exact h.2 pm hpm

theorem dget_dedupAtKey_ne {cfg : List (String × Val)} {k k' : String} (h : k' ≠ k) :
    dget (dedupAtKey cfg k) k' = dget cfg k' := by
  unfold dedupAtKey
  rcases hk : dget cfg k with _ | w
  · rfl
  · cases w with
    | list l => exact dget_dset_ne _ _ _ _ h
    | null => rfl
    | bool c => rfl
    | int n => rfl
    | str s => rfl
    | dict m => rfl

theorem dkeys_dedupAtKey (cfg : List (String × Val)) (k : String) :
    dkeys (dedupAtKey cfg k) = dkeys cfg := by
  unfold dedupAtKey
  rcases hk : dget cfg k with _ | w
  · rfl
  · cases w with
    | list l => exact dkeys_dset_of_mem _ hk
    | null => rfl
    | bool c => rfl
    | int n => rfl
    | str s => rfl
    | dict m => rfl

theorem cfgND_dedupAtKey {cfg : List (String × Val)} {k : String}
    (h : cfgND cfg) (hk : k ≠ "prepare") : cfgND (dedupAtKey cfg k) := by
  constructor
  · rw [dkeys_dedupAtKey]
    exact h.1
  · intro pm hpm
    rw [dget_dedupAtKey_ne (Ne.symm hk)] at hpm
    exact h.2 pm hpm

theorem dget_dedupKeysCfg_prepare (cfg : List (String × Val)) :
    dget (dedupKeysCfg cfg) "prepare" = dget cfg "prepare" := by
  unfold dedupKeysCfg dedupKeyList
  simp only [List.foldl_cons, List.foldl_nil]
  rw [dget_dedupAtKey_ne (by decide), dget_dedupAtKey_ne (by decide),
    dget_dedupAtKey_ne (by decide)]

theorem cfgND_dedupKeysCfg {cfg : List (String × Val)} (h : cfgND cfg) :
    cfgND (dedupKeysCfg cfg) := by
  unfold dedupKeysCfg dedupKeyList
  simp only [List.foldl_cons, List.foldl_nil]
  exact cfgND_dedupAtKey (cfgND_dedupAtKey (cfgND_dedupAtKey h (by decide)) (by decide))
    (by decide)

theorem dget_normalizeTitle_ne {cfg : List (String × Val)} {k : String}
    (h : k ≠ "title") : dget (normalizeTitle cfg) k = dget cfg k := by
  unfold normalizeTitle
  rcases ht : dget cfg "title" with _ | w
  · rfl
  · cases w with
    | str t => exact dget_dset_ne _ _ _ _ h
    | null => rfl
    | bool c => rfl
    | int n => rfl
    | list l => rfl
    | dict m => rfl

theorem dkeys_normalizeTitle (cfg : List (String × Val)) :
    dkeys (normalizeTitle cfg) = dkeys cfg := by
  unfold normalizeTitle
  rcases ht : dget cfg "title" with _ | w
  · rfl
  · cases w with
    | str t => exact dkeys_dset_of_mem _ ht
    | null => rfl
    | bool c => rfl
    | int n => rfl
    | list l => rfl
    | dict m => rfl

theorem cfgND_normalizeTitle {cfg : List (String × Val)} (h : cfgND cfg) :
    cfgND (normalizeTitle cfg) := by
  constructor
  · rw [dkeys_normalizeTitle]
    exact h.1
  · intro pm hpm
    rw [dget_normalizeTitle_ne (by decide)] at hpm
    exact h.2 pm hpm

theorem copyEntriesOf_eq_of_dget_eq {c₁ c₂ : List (String × Val)}
    (h : dget c₁ "prepare" = dget c₂ "prepare") :
    copyEntriesOf c₁ = copyEntriesOf c₂ := by
  unfold copyEntriesOf
  rw [h]

/-! Unfolding equations for the fuel-indexed configuration loading. -/

theorem loadConfigAux_zero (fs : List String → Option Val) (p root : List String) :
    loadConfigAux fs 0 p root = none := rfl

theorem loadExtends_nil (load : List String → Option (List (String × Val)))
    (pdir : List String) (acc : List (String × Val)) :
    loadExtends load pdir [] acc = some acc := rfl

theorem loadExtends_cons (load : List String → Option (List (String × Val)))
    (pdir : List String) (ext : String) (rest : List String)
    (acc : List (String × Val)) :
    loadExtends load pdir (ext :: rest) acc =
      match load (resolveUnder pdir ext) with
      | none => none
      | some ecfg => loadExtends load pdir rest (mergeDicts acc ecfg) := rfl

theorem loadConfigAux_succ (fs : List String → Option Val) (fuel : Nat)
    (p root : List String) :
    loadConfigAux fs (fuel + 1) p root =
      match fs p with
      | none => none
      | some raw =>
        match (if isFalsy raw then Val.dict [] else raw) with
        | .dict cfg₀ =>
          let cfg := resolveRelativePaths cfg₀ p.dropLast root
          match extendsStrings ((dget cfg "extends").getD (Val.list [])) with
          | none => none
          | some exts =>
            match loadExtends (fun q => loadConfigAux fs fuel q root) p.dropLast exts [] with
            | none => none
            | some combined =>
              some (dedupKeysCfg (normalizeTitle (mergeDicts combined (derase cfg "extends"))))
        | _ => none := rfl

/-! The anchoring invariant through the extends fold and the loader. -/

theorem loadExtends_inv (fs : List String → Option Val)
    (load : List String → Option (List (String × Val)))
    (p root : List String) (raw : Val)
    (hraw : fs p = some raw) (hgp : goodPath p)
    (ihf : ∀ q cfg, goodPath q → load q = some cfg →
      cfgND cfg ∧ anchored fs q root cfg) :
    ∀ (exts : List String) (acc out : List (String × Val)),
      (∀ e ∈ exts, e ∈ extendsOfDoc raw) →
      cfgND acc → anchored fs p root acc →
      loadExtends load p.dropLast exts acc = some out →
      cfgND out ∧ anchored fs p root out := by
  intro exts
  induction exts with
  | nil =>
    intro acc out _ hnd hanc h
    rw [loadExtends_nil] at h
    injection h with h
    subst h
    exact ⟨hnd, hanc⟩
  | cons ext rest ihe =>
    intro acc out hmem hnd hanc h
    rw [loadExtends_cons] at h
    rcases hrec : load (resolveUnder p.dropLast ext) with _ | ecfg
    · rw [hrec] at h
      simp at h
    · rw [hrec] at h
      have hgq : goodPath (resolveUnder p.dropLast ext) :=
        goodPath_resolveUnder _ (goodPath_dropLast hgp)
      obtain ⟨hnde, hance⟩ := ihf _ _ hgq hrec
      have hance₁ : anchored fs p root ecfg := by
        intro e he s hs habs
        obtain ⟨q₁, raw₁, e₀, s₀, hreach, hfsq, hm₀, hs₀, habs₀, heq₁, heq₂⟩ :=
          hance e he s hs habs
        exact ⟨q₁, raw₁, e₀, s₀,
          Reaches.step p q₁ raw ext hraw (hmem ext (by simp)) hreach,
          hfsq, hm₀, hs₀, habs₀, heq₁, heq₂⟩
      refine ihe (mergeDicts acc ecfg) out (fun e he => hmem e (by simp [he]))
        (cfgND_mergeDicts hnd) ?_ h
      intro e he s hs habs
      rcases mem_copyEntriesOf_mergeDicts _ _ he with hm | hm
      · exact hanc e hm s hs habs
      · rw [docCopyEntries_eq_copyEntriesOf hnde] at hm
        exact hance₁ e hm s hs habs

theorem loadConfigAux_inv (fs : List String → Option Val)
    (hfs : ∀ q raw, fs q = some raw → docND raw) :
    ∀ (fuel : Nat) (p root : List String) (cfg : List (String × Val)),
      goodPath p → goodPath root →
      loadConfigAux fs fuel p root = some cfg →
      cfgND cfg ∧ anchored fs p root cfg := by
  intro fuel
  induction fuel with
  | zero =>
    intro p root cfg _ _ h
    rw [loadConfigAux_zero] at h
    simp at h
  | succ fuel ih =>
    intro p root cfg hgp hgr h
    rw [loadConfigAux_succ] at h
    rcases hraw : fs p with _ | raw
    · rw [hraw] at h
      simp at h
    · rw [hraw] at h
      replace h : (match (if isFalsy raw then Val.dict [] else raw) with
        | Val.dict cfg₀ =>
          match extendsStrings ((dget (resolveRelativePaths cfg₀ p.dropLast root)
              "extends").getD (Val.list [])) with
          | none => none
          | some exts =>
            match loadExtends (fun q => loadConfigAux fs fuel q root) p.dropLast
                exts [] with
            | none => none
            | some combined =>
              some (dedupKeysCfg (normalizeTitle (mergeDicts combined
                (derase (resolveRelativePaths cfg₀ p.dropLast root) "extends"))))
        | _ => none) = some cfg := h
      cases hv : (if isFalsy raw then Val.dict [] else raw) with
      | null => rw [hv] at h; simp at h
      | bool c => rw [hv] at h; simp at h
      | int n => rw [hv] at h; simp at h
      | str s => rw [hv] at h; simp at h
      | list l => rw [hv] at h; simp at h
      | dict cfg₀ =>
        rw [hv] at h
        replace h₂ : (match extendsStrings
            ((dget (resolveRelativePaths cfg₀ p.dropLast root) "extends").getD
              (Val.list [])) with
          | none => none
          | some exts =>
            match loadExtends (fun q => loadConfigAux fs fuel q root) p.dropLast
                exts [] with
            | none => none
            | some combined =>
              some (dedupKeysCfg (normalizeTitle (mergeDicts combined
                (derase (resolveRelativePaths cfg₀ p.dropLast root) "extends"))))) =
            some cfg := h
        clear h
        rcases hex : extendsStrings
            ((dget (resolveRelativePaths cfg₀ p.dropLast root) "extends").getD
              (Val.list [])) with _ | exts
        · rw [hex] at h₂
          simp at h₂
        · rw [hex] at h₂
          replace h₂ : (match loadExtends (fun q => loadConfigAux fs fuel q root)
              p.dropLast exts [] with
            | none => none
            | some combined =>
              some (dedupKeysCfg (normalizeTitle (mergeDicts combined
                (derase (resolveRelativePaths cfg₀ p.dropLast root) "extends"))))) =
              some cfg := h₂
          rcases hle : loadExtends (fun q => loadConfigAux fs fuel q root)
              p.dropLast exts [] with _ | combined
          · rw [hle] at h₂
            simp at h₂
          · rw [hle] at h₂
            replace h₂ : some (dedupKeysCfg (normalizeTitle (mergeDicts combined
                (derase (resolveRelativePaths cfg₀ p.dropLast root) "extends")))) =
                some cfg := h₂
            have hcfg : cfg = dedupKeysCfg (normalizeTitle (mergeDicts combined
                (derase (resolveRelativePaths cfg₀ p.dropLast root) "extends"))) := by
              injection h₂ with hh
              exact hh.symm
            have hND₀ : cfgND cfg₀ := by
              by_cases hf : isFalsy raw
              · rw [if_pos hf] at hv
                have hc0 : cfg₀ = [] := by injection hv with hh; exact hh.symm
                rw [hc0]
                exact cfgND_nil
              · rw [if_neg hf] at hv
                have hdn := hfs p raw hraw
                rw [hv] at hdn
                exact hdn
            have hND₁ : cfgND (resolveRelativePaths cfg₀ p.dropLast root) :=
              cfgND_resolveRelativePaths hND₀
            have hmemext : ∀ e ∈ exts, e ∈ extendsOfDoc raw := by
              intro e he
              by_cases hf : isFalsy raw
              · rw [if_pos hf] at hv
                have hc0 : cfg₀ = [] := by injection hv with hh; exact hh.symm
                subst hc0
                have hnone : dget (resolveRelativePaths [] p.dropLast root) "extends" =
                    none := by
                  rw [dget_resolveRelativePaths_ne (by decide)]
                  rfl
                rw [hnone] at hex
                have hrfl : extendsStrings ((none : Option Val).getD (Val.list [])) =
                    some [] := rfl
                rw [hrfl] at hex
                injection hex with hex
                rw [← hex] at he
                simp at he
              · rw [if_neg hf] at hv
                rw [hv]
                show e ∈ (extendsStrings ((dget cfg₀ "extends").getD (Val.list []))).getD []
                rw [← @dget_resolveRelativePaths_ne cfg₀ p.dropLast root
                  "extends" (by decide)]
                rw [hex]
                simpa using he
            obtain ⟨hndc, hancc⟩ := loadExtends_inv fs
              (fun q => loadConfigAux fs fuel q root) p root raw hraw hgp
              (fun q c hq hc => ih q root c hq hgr hc) exts [] combined hmemext cfgND_nil
              (by intro e he s hs habs; simp [copyEntriesOf, dget] at he) hle
            have hdoc : anchored fs p root (mergeDicts combined
                (derase (resolveRelativePaths cfg₀ p.dropLast root) "extends")) := by
              intro e he s hs habs
              rcases mem_copyEntriesOf_mergeDicts _ _ he with hm | hm
              · exact hancc e hm s hs habs
              · rw [docCopyEntries_derase (by decide)] at hm
                rw [docCopyEntries_eq_copyEntriesOf hND₁] at hm
                rw [copyEntriesOf_resolveRelativePaths] at hm
                rcases List.mem_map.mp hm with ⟨e₀, he₀, hre⟩
                rw [← hre] at hs
                obtain ⟨s₀, hs₀, habs₀, heq⟩ := rewriteEntry_spec hs habs
                refine ⟨p, raw, e₀, s₀, Reaches.refl p, hraw, ?_, hs₀, habs₀, heq, ?_⟩
                · by_cases hf : isFalsy raw
                  · rw [if_pos hf] at hv
                    have hc0 : cfg₀ = [] := by injection hv with hh; exact hh.symm
                    rw [hc0] at he₀
                    simp [copyEntriesOf, dget] at he₀
                  · rw [if_neg hf] at hv
                    rw [hv]
                    exact he₀
                · rw [heq]
                  exact resolveUnder_relpathStr
                    (goodPath_resolveUnder _ (goodPath_dropLast hgp)) hgr
            have hprep : dget cfg "prepare" = dget (mergeDicts combined
                (derase (resolveRelativePaths cfg₀ p.dropLast root) "extends"))
                "prepare" := by
              rw [hcfg, dget_dedupKeysCfg_prepare, dget_normalizeTitle_ne (by decide)]
            constructor
            · rw [hcfg]
              exact cfgND_dedupKeysCfg (cfgND_normalizeTitle (cfgND_mergeDicts hndc))
            · intro e he s hs habs
              rw [copyEntriesOf_eq_of_dget_eq hprep] at he
              exact hdoc e he s hs habs


/-! De-duplication lemmas. -/

theorem mem_dedupAux : ∀ (l seen : List Val) (x : Val),
    x ∈ dedupAux seen l ↔ x ∈ l ∧ x ∉ seen := by
  intro l
  induction l with
  | nil => intro seen x; simp [dedupAux]
  | cons y ys ih =>
    intro seen x
    by_cases hy : seen.contains y
    · have hymem : y ∈ seen := by
        have := List.elem_iff.mp hy
        exact this
      simp only [dedupAux, hy, if_true]
      rw [ih]
      constructor
      · rintro ⟨h₁, h₂⟩
        exact ⟨by simp [h₁], h₂⟩
      · rintro ⟨h₁, h₂⟩
        rcases List.mem_cons.mp h₁ with h | h
        · subst h; exact absurd hymem h₂
        · exact ⟨h, h₂⟩
    · have hymem : y ∉ seen := fun hc => hy (List.elem_iff.mpr hc)
      simp only [dedupAux, hy, if_false]
      constructor
      · intro hx
        rcases List.mem_cons.mp hx with h | h
        · subst h
          exact ⟨by simp, hymem⟩
        · have := (ih (y :: seen) x).mp h
          refine ⟨by simp [this.1], fun hc => this.2 (by simp [hc])⟩
      · rintro ⟨h₁, h₂⟩
        rcases List.mem_cons.mp h₁ with h | h
        · subst h; simp
        · by_cases hxy : x = y
          · subst hxy; simp
          · refine List.mem_cons.mpr (Or.inr ((ih (y :: seen) x).mpr ⟨h, ?_⟩))
            intro hc
            rcases List.mem_cons.mp hc with h₃ | h₃
            · exact hxy h₃
            · exact h₂ h₃

theorem dedupAux_sublist : ∀ (l seen : List Val), (dedupAux seen l).Sublist l := by
  intro l
  induction l with
  | nil => intro seen; simp [dedupAux]
  | cons y ys ih =>
    intro seen
    by_cases hy : seen.contains y
    · simp only [dedupAux, hy, if_true]
      exact (ih seen).cons y
    · simp only [dedupAux, hy, if_false]
      exact (ih (y :: seen)).cons₂ y

theorem dedupAux_nodup : ∀ (l seen : List Val), (dedupAux seen l).Nodup := by
  intro l
  induction l with
  | nil => intro seen; simp [dedupAux]
  | cons y ys ih =>
    intro seen
    by_cases hy : seen.contains y
    · simp only [dedupAux, hy, if_true]
      exact ih seen
    · simp only [dedupAux, hy, if_false]
      refine List.nodup_cons.mpr ⟨fun hc => ?_, ih (y :: seen)⟩
      exact ((mem_dedupAux ys (y :: seen) y).mp hc).2 (by simp)

/-! Boolean well-formedness transfer. -/

theorem cfgND_of_b {cfg : List (String × Val)} (h : cfgNDb cfg = true) : cfgND cfg := by
  unfold cfgNDb at h
  rcases (Bool.and_eq_true _ _).mp h with ⟨h₁, h₂⟩
  refine ⟨of_decide_eq_true h₁, ?_⟩
  intro pm hpm
  rw [hpm] at h₂
  exact of_decide_eq_true h₂

theorem docND_of_b {v : Val} (h : docNDb v = true) : docND v := by
  cases v with
  | dict m => exact cfgND_of_b h
  | null => trivial
  | bool c => trivial
  | int n => trivial
  | str s => trivial
  | list l => trivial


/-! Absence of the extends key in every resolved configuration. -/

theorem pair_key_ne_of_not_mem {d : List (String × Val)} {k : String}
    (h : k ∉ dkeys d) : ∀ kv ∈ d, kv.1 ≠ k := by
  intro kv hkv he
  exact h (he ▸ List.mem_map_of_mem Prod.fst hkv)

theorem dkeys_dedupKeysCfg (cfg : List (String × Val)) :
    dkeys (dedupKeysCfg cfg) = dkeys cfg := by
  unfold dedupKeysCfg dedupKeyList
  simp only [List.foldl_cons, List.foldl_nil]
  rw [dkeys_dedupAtKey, dkeys_dedupAtKey, dkeys_dedupAtKey]

theorem loadExtends_no_extends (load : List String → Option (List (String × Val)))
    (pdir : List String)
    (hl : ∀ q c, load q = some c → "extends" ∉ dkeys c) :
    ∀ (exts : List String) (acc out : List (String × Val)),
      "extends" ∉ dkeys acc → loadExtends load pdir exts acc = some out →
      "extends" ∉ dkeys out := by
  intro exts
  induction exts with
  | nil =>
    intro acc out hacc h
    rw [loadExtends_nil] at h
    injection h with h
    subst h
    exact hacc
  | cons ext rest ih =>
    intro acc out hacc h
    rw [loadExtends_cons] at h
    rcases hrec : load (resolveUnder pdir ext) with _ | ecfg
    · rw [hrec] at h
      simp at h
    · rw [hrec] at h
      refine ih (mergeDicts acc ecfg) out ?_ h
      exact not_mem_dkeys_mergeDicts (pair_key_ne_of_not_mem (hl _ _ hrec)) hacc

theorem loadConfigAux_no_extends (fs : List String → Option Val) :
    ∀ (fuel : Nat) (p root : List String) (cfg : List (String × Val)),
      loadConfigAux fs fuel p root = some cfg → "extends" ∉ dkeys cfg := by
  intro fuel
  induction fuel with
  | zero =>
    intro p root cfg h
    rw [loadConfigAux_zero] at h
    simp at h
  | succ fuel ih =>
    intro p root cfg h
    rw [loadConfigAux_succ] at h
    rcases hraw : fs p with _ | raw
    · rw [hraw] at h
      simp at h
    · rw [hraw] at h
      replace h : (match (if isFalsy raw then Val.dict [] else raw) with
        | Val.dict cfg₀ =>
          match extendsStrings ((dget (resolveRelativePaths cfg₀ p.dropLast root)
              "extends").getD (Val.list [])) with
          | none => none
          | some exts =>
            match loadExtends (fun q => loadConfigAux fs fuel q root) p.dropLast
                exts [] with
            | none => none
            | some combined =>
              some (dedupKeysCfg (normalizeTitle (mergeDicts combined
                (derase (resolveRelativePaths cfg₀ p.dropLast root) "extends"))))
        | _ => none) = some cfg := h
      cases hv : (if isFalsy raw then Val.dict [] else raw) with
      | null => rw [hv] at h; simp at h
      | bool c => rw [hv] at h; simp at h
      | int n => rw [hv] at h; simp at h
      | str s => rw [hv] at h; simp at h
      | list l => rw [hv] at h; simp at h
      | dict cfg₀ =>
        rw [hv] at h
        replace h : (match extendsStrings
            ((dget (resolveRelativePaths cfg₀ p.dropLast root) "extends").getD
              (Val.list [])) with
          | none => none
          | some exts =>
            match loadExtends (fun q => loadConfigAux fs fuel q root) p.dropLast
                exts [] with
            | none => none
            | some combined =>
              some (dedupKeysCfg (normalizeTitle (mergeDicts combined
                (derase (resolveRelativePaths cfg₀ p.dropLast root) "extends"))))) =
            some cfg := h
        rcases hex : extendsStrings
            ((dget (resolveRelativePaths cfg₀ p.dropLast root) "extends").getD
              (Val.list [])) with _ | exts
        · rw [hex] at h
          simp at h
        · rw [hex] at h
          replace h : (match loadExtends (fun q => loadConfigAux fs fuel q root)
              p.dropLast exts [] with
            | none => none
            | some combined =>
              some (dedupKeysCfg (normalizeTitle (mergeDicts combined
                (derase (resolveRelativePaths cfg₀ p.dropLast root) "extends"))))) =
              some cfg := h
          rcases hle : loadExtends (fun q => loadConfigAux fs fuel q root)
              p.dropLast exts [] with _ | combined
          · rw [hle] at h
            simp at h
          · rw [hle] at h
            replace h : some (dedupKeysCfg (normalizeTitle (mergeDicts combined
                (derase (resolveRelativePaths cfg₀ p.dropLast root) "extends")))) =
                some cfg := h
            have hcfg : cfg = dedupKeysCfg (normalizeTitle (mergeDicts combined
                (derase (resolveRelativePaths cfg₀ p.dropLast root) "extends"))) := by
              injection h with hh
              exact hh.symm
            have hcomb : "extends" ∉ dkeys combined :=
              loadExtends_no_extends _ _ (fun q c hq => ih q root c hq) exts []
                combined (by simp [dkeys_nil]) hle
            have hfinal : "extends" ∉ dkeys (mergeDicts combined
                (derase (resolveRelativePaths cfg₀ p.dropLast root) "extends")) :=
              not_mem_dkeys_mergeDicts
                (fun kv hkv => (derase_mem_key hkv).2) hcomb
            rw [hcfg, dkeys_dedupKeysCfg, dkeys_normalizeTitle]
            exact hfinal


/-! Claim theorems. -/

/-- C2: load_config deep-merges a child document over the accumulated
bases. The child wins on scalar conflicts, mappings are merged
recursively (so child leaves win), lists are concatenated with the
accumulator first, and the concrete base-and-child example resolves to
exactly the expected mapping. -/
theorem claim_C2 :
    (∀ (b n : List (String × Val)) (k : String) (v : Val),
      (dkeys n).Nodup → dget n k = some v →
      (∀ l, v ≠ Val.list l) → (∀ m, v ≠ Val.dict m) →
      dget (mergeDicts b n) k = some v) ∧
    (∀ (b n : List (String × Val)) (k : String) (bm nm : List (String × Val)),
      (dkeys n).Nodup → dget b k = some (Val.dict bm) → dget n k = some (Val.dict nm) →
      dget (mergeDicts b n) k = some (Val.dict (mergeDicts bm nm))) ∧
    (∀ (b n : List (String × Val)) (k : String) (e l : List Val),
      (dkeys n).Nodup → dget b k = some (Val.list e) → dget n k = some (Val.list l) →
      dget (mergeDicts b n) k = some (Val.list (e ++ l))) ∧
    load_config fsC2 3 ["d", "child.yml"] =
      some [("a", Val.int 1), ("list", Val.list [Val.int 1, Val.int 2]),
            ("b", Val.int 3)] := by
  refine ⟨?_, ?_, ?_, by decide⟩
  · intro b n k v hnd hv h₁ h₂
    rw [dget_mergeDicts_some hnd hv _, mergeOne_scalar _ _ h₁ h₂]
  · intro b n k bm nm hnd hb hn
    rw [dget_mergeDicts_some hnd hn _, mergeOne_dict_eq, hb]
  · intro b n k e l hnd hb hn
    rw [dget_mergeDicts_some hnd hn _, mergeOne_list_eq, hb]

/-- C2 witness: the general merge facts applied at concrete mappings,
and the concrete extends resolution. -/
theorem claim_C2_witness :
    dget (mergeDicts [("x", Val.int 1)] [("x", Val.int 2)]) "x" = some (Val.int 2) ∧
    load_config fsC2 3 ["d", "child.yml"] =
      some [("a", Val.int 1), ("list", Val.list [Val.int 1, Val.int 2]),
            ("b", Val.int 3)] :=
  ⟨claim_C2.1 [("x", Val.int 1)] [("x", Val.int 2)] "x" (Val.int 2) (by decide)
      (by decide) (fun l h => Val.noConfusion h) (fun m h => Val.noConfusion h),
    claim_C2.2.2.2⟩

/-- C5: the post-merge de-duplication keeps the first occurrence of each
element and drops later duplicates (the result is a duplicate-free
sublist with the same members), the concrete double-a example collapses,
the merge itself concatenates lists without de-duplicating, and in the
concrete two-document resolution only target_dirs is de-duplicated while
the list at another key keeps its duplicate. -/
theorem claim_C5 :
    (∀ l : List Val, (dedupList l).Sublist l ∧ (dedupList l).Nodup ∧
      (∀ x, x ∈ dedupList l ↔ x ∈ l)) ∧
    dedupList [Val.str "a", Val.str "a", Val.str "b"] = [Val.str "a", Val.str "b"] ∧
    (∀ (b n : List (String × Val)) (k : String) (e l : List Val),
      (dkeys n).Nodup → dget b k = some (Val.list e) → dget n k = some (Val.list l) →
      dget (mergeDicts b n) k = some (Val.list (e ++ l))) ∧
    load_config fsC5 3 ["d", "c.yml"] =
      some [("target_dirs", Val.list [Val.str "a", Val.str "b"]),
            ("other", Val.list [Val.str "x", Val.str "x"])] := by
  refine ⟨?_, by decide, ?_, by decide⟩
  · intro l
    refine ⟨dedupAux_sublist l [], dedupAux_nodup l [], fun x => ?_⟩
    rw [dedupList, mem_dedupAux]
    simp
  · intro b n k e l hnd hb hn
    rw [dget_mergeDicts_some hnd hn _, mergeOne_list_eq, hb]

/-- C5 witness: the general de-duplication facts applied at a concrete
list, and the concrete resolutions. -/
theorem claim_C5_witness :
    (dedupList [Val.int 1, Val.int 1]).Nodup ∧
    load_config fsC5 3 ["d", "c.yml"] =
      some [("target_dirs", Val.list [Val.str "a", Val.str "b"]),
            ("other", Val.list [Val.str "x", Val.str "x"])] :=
  ⟨(claim_C5.1 [Val.int 1, Val.int 1]).2.1, claim_C5.2.2.2⟩

/-- C6: a successfully resolved configuration never carries the extends
key at top level, whatever extends chains appeared in the inputs. -/
theorem claim_C6 (fs : List String → Option Val) (fuel : Nat) (p : List String)
    (cfg : List (String × Val)) (h : load_config fs fuel p = some cfg) :
    "extends" ∉ dkeys cfg :=
  loadConfigAux_no_extends fs fuel p p.dropLast cfg h

/-- C6 witness: the resolved concrete child configuration, whose input
declared an extends chain, has no extends key. -/
theorem claim_C6_witness :
    "extends" ∉ dkeys [("a", Val.int 1), ("list", Val.list [Val.int 1, Val.int 2]),
      ("b", Val.int 3)] :=
  claim_C6 fsC2 3 ["d", "child.yml"]
    [("a", Val.int 1), ("list", Val.list [Val.int 1, Val.int 2]), ("b", Val.int 3)]
    (by decide)

/-- C9: a configuration file that parses to an empty YAML document is
treated as the empty mapping, so resolving it (it declares no extends)
yields the empty configuration without an error. -/
theorem claim_C9 (fs : List String → Option Val) (fuel : Nat) (p : List String)
    (h : fs p = some Val.null) : load_config fs (fuel + 1) p = some [] := by
  unfold load_config
  rw [loadConfigAux_succ, h]
  rfl

/-- C9 witness: a concrete filesystem with one empty document. -/
theorem claim_C9_witness :
    load_config (fun p => if p = ["e.yml"] then some Val.null else none) 1 ["e.yml"] =
      some [] :=
  claim_C9 (fun p => if p = ["e.yml"] then some Val.null else none) 0 ["e.yml"]
    (by decide)


/-- Documents served by the concrete three-level filesystem are
well-formed parsed mappings. -/
theorem fsC1_docND : ∀ q raw, fsC1 q = some raw → docND raw := by
  intro q raw h
  unfold fsC1 at h
  split_ifs at h
  all_goals
    first
    | exact Option.noConfusion h
    | (injection h with h
       rw [← h]
       exact docND_of_b (by decide))

/-- C1: every relative copy-file src in a resolved configuration is the
root-relative rendering of a src declared by some document of the
extends chain, resolved against that document's own directory; reading
the stored value back against the root directory recovers exactly the
declaring document's file, however deep in the chain it originated.
Paths are component lists of plain directory entries and the filesystem
serves well-formed parsed YAML mappings (unique keys), as PyYAML
guarantees. -/
theorem claim_C1 (fs : List String → Option Val) (fuel : Nat) (p : List String)
    (cfg : List (String × Val))
    (hgood : goodPath p)
    (hdocs : ∀ q raw, fs q = some raw → docND raw)
    (h : load_config fs fuel p = some cfg) :
    ∀ e ∈ copyEntriesOf cfg, ∀ s, srcOf e = some s → isAbsolute s = false →
    ∃ q raw e₀ s₀,
      Reaches fs p q ∧ fs q = some raw ∧
      e₀ ∈ docCopyEntriesVal raw ∧ srcOf e₀ = some s₀ ∧ isAbsolute s₀ = false ∧
      s = relpathStr (resolveUnder q.dropLast s₀) p.dropLast ∧
      resolveUnder p.dropLast s = resolveUnder q.dropLast s₀ :=
  (loadConfigAux_inv fs hdocs fuel p p.dropLast cfg hgood (goodPath_dropLast hgood) h).2

/-- C1 witness: in the three-level chain the grandparent's relative src,
declared two extends levels up and in a different directory, is stored
root-anchored in the effective configuration. -/
theorem claim_C1_witness :
    ∃ q raw e₀ s₀,
      Reaches fsC1 ["r", "c", "child.yml"] q ∧ fsC1 q = some raw ∧
      e₀ ∈ docCopyEntriesVal raw ∧ srcOf e₀ = some s₀ ∧ isAbsolute s₀ = false ∧
      "../sub/gfile.txt" = relpathStr (resolveUnder q.dropLast s₀)
        (["r", "c", "child.yml"] : List String).dropLast ∧
      resolveUnder (["r", "c", "child.yml"] : List String).dropLast "../sub/gfile.txt" =
        resolveUnder q.dropLast s₀ :=
  claim_C1 fsC1 5 ["r", "c", "child.yml"]
    [("prepare", Val.dict [("copy_files", Val.list
      [Val.dict [("src", Val.str "../sub/gfile.txt"), ("dest", Val.str "/g")],
       Val.dict [("src", Val.str "../pfile.txt"), ("dest", Val.str "/p")],
       Val.dict [("src", Val.str "cfile.txt"), ("dest", Val.str "/c")]])])]
    (by decide) fsC1_docND (by decide)
    (Val.dict [("src", Val.str "../sub/gfile.txt"), ("dest", Val.str "/g")])
    (by decide) "../sub/gfile.txt" (by decide) (by decide)


/-! Substring-witnessing lemmas for the skip message. -/

theorem isPrefixOf_append_self : ∀ (p t : List Char), p.isPrefixOf (p ++ t) = true := by
  intro p
  induction p with
  | nil => intro t; simp [List.isPrefixOf]
  | cons c cs ih => intro t; simp [List.isPrefixOf, ih]

theorem tails_any_of_prefix {p : List Char} :
    ∀ (l : List Char), p.isPrefixOf l = true →
      (l.tails.any (fun t => p.isPrefixOf t)) = true := by
  intro l h
  cases l with
  | nil => simpa using h
  | cons c cs =>
    rw [List.tails_cons]
    simp only [List.any_cons]
    rw [h]
    rfl

theorem tails_any_mid : ∀ (a p rest : List Char),
    ((a ++ (p ++ rest)).tails.any (fun t => p.isPrefixOf t)) = true := by
  intro a
  induction a with
  | nil =>
    intro p rest
    simp only [List.nil_append]
    exact tails_any_of_prefix _ (isPrefixOf_append_self p rest)
  | cons c cs ih =>
    intro p rest
    rw [List.cons_append, List.tails_cons]
    simp only [List.any_cons]
    rw [ih p rest]
    simp

theorem containsSub_of_data {s pat : String} (a b : List Char)
    (h : s.data = a ++ pat.data ++ b) : containsSub s pat = true := by
  unfold containsSub
  rw [h, List.append_assoc]
  exact tails_any_mid a pat.data b

/-- C7: the command_diff loop never aborts: it yields exactly one output
entry per request, and any request whose baseline or after capture file
is missing gets the skip-reason string, which names the missing files
and contains the not-found indicator, instead of diff content. -/
theorem claim_C7 (baseDir afterDir : String) (ex : String → Bool)
    (diffFn : String → String → String) (entries : List CmdDiffSpec) :
    (buildCommandOutputs baseDir afterDir ex diffFn entries).length = entries.length ∧
    ∀ (i : Nat) (e : CmdDiffSpec), entries[i]? = some e →
      (ex (joinPath baseDir (pathBasename e.outfile)) &&
        ex (joinPath afterDir (pathBasename e.outfile))) = false →
      (buildCommandOutputs baseDir afterDir ex diffFn entries)[i]? = some
        { command := e.command, diff_file := e.outfile,
          diff_content := "Skipped: Output file(s) not found (" ++
            joinCommaSep (missingInfo baseDir afterDir ex (pathBasename e.outfile)) ++
            ")." } ∧
      containsSub ("Skipped: Output file(s) not found (" ++
        joinCommaSep (missingInfo baseDir afterDir ex (pathBasename e.outfile)) ++
        ").") "not found" = true := by
  constructor
  · simp [buildCommandOutputs]
  · intro i e hi hcond
    constructor
    · unfold buildCommandOutputs
      rw [List.getElem?_map, hi]
      show some (commandOutputFor baseDir afterDir ex diffFn e) = _
      unfold commandOutputFor
      simp [hcond]
    · refine containsSub_of_data ("Skipped: Output file(s) ").data
        ((" (" ++ joinCommaSep (missingInfo baseDir afterDir ex
          (pathBasename e.outfile)) ++ ").").data) ?_
      have hsplit : ("Skipped: Output file(s) not found (" : String) =
          "Skipped: Output file(s) " ++ "not found" ++ " (" := by decide
      rw [hsplit]
      rfl

/-- C7 witness: one concrete request whose baseline capture is missing
yields the skip entry and the loop still yields one entry. -/
theorem claim_C7_witness :
    (buildCommandOutputs "/t/b" "/t/a" (fun s => s == "/t/a/o.txt") (fun _ _ => "D")
      [{ command := "ls", outfile := "x/o.txt" }]).length = 1 ∧
    (buildCommandOutputs "/t/b" "/t/a" (fun s => s == "/t/a/o.txt") (fun _ _ => "D")
      [{ command := "ls", outfile := "x/o.txt" }])[0]? = some
      { command := "ls", diff_file := "x/o.txt",
        diff_content := "Skipped: Output file(s) not found (" ++
          joinCommaSep (missingInfo "/t/b" "/t/a" (fun s => s == "/t/a/o.txt")
            (pathBasename "x/o.txt")) ++ ")." } := by
  have h := claim_C7 "/t/b" "/t/a" (fun s => s == "/t/a/o.txt") (fun _ _ => "D")
    [{ command := "ls", outfile := "x/o.txt" }]
  exact ⟨h.1, (h.2 0 { command := "ls", outfile := "x/o.txt" } (by decide) (by decide)).1⟩


/-! Entry decomposition lemmas for the full diff. -/

theorem groupLines_nil : groupLines [] = [] := by simp [groupLines]

theorem groupLines_cons (l : String) (ls : List String) :
    groupLines (l :: ls) =
      (l :: ls.takeWhile (fun x => !isHeaderLine x)) ::
        groupLines (ls.dropWhile (fun x => !isHeaderLine x)) := by
  rw [groupLines]

theorem groupLines_flatten : ∀ ls : List String, (groupLines ls).flatten = ls := by
  intro ls
  induction ls using groupLines.induct with
  | case1 => simp [groupLines_nil]
  | case2 l ls ih =>
    rw [groupLines_cons]
    simp only [List.flatten_cons, ih]
    simp [List.takeWhile_append_dropWhile]

theorem groupLines_ne_nil : ∀ (ls : List String), ∀ g ∈ groupLines ls, g ≠ [] := by
  intro ls
  induction ls using groupLines.induct with
  | case1 => simp [groupLines_nil]
  | case2 l ls ih =>
    rw [groupLines_cons]
    intro g hg
    rcases List.mem_cons.mp hg with h | h
    · subst h; simp
    · exact ih g h

theorem groupLines_tail_nonheader : ∀ (ls : List String), ∀ g ∈ groupLines ls,
    ∀ x ∈ g.tail, isHeaderLine x = false := by
  intro ls
  induction ls using groupLines.induct with
  | case1 => simp [groupLines_nil]
  | case2 l ls ih =>
    rw [groupLines_cons]
    intro g hg x hx
    rcases List.mem_cons.mp hg with h | h
    · subst h
      simp only [List.tail_cons] at hx
      have := List.mem_takeWhile_imp hx
      simpa using this
    · exact ih g h x hx

theorem head_dropWhile_not {α : Type} (p : α → Bool) :
    ∀ (l : List α) (c : α), (l.dropWhile p).head? = some c → p c = false := by
  intro l
  induction l with
  | nil => intro c h; simp [List.dropWhile] at h
  | cons x xs ih =>
    intro c h
    by_cases hp : p x
    · rw [List.dropWhile_cons_of_pos hp] at h
      exact ih c h
    · rw [List.dropWhile_cons_of_neg hp] at h
      simp at h
      subst h
      simpa using hp

theorem groupLines_heads_of_header : ∀ (ls : List String),
    (ls = [] ∨ ∃ hd tl, ls = hd :: tl ∧ isHeaderLine hd = true) →
    ∀ g ∈ groupLines ls, ∃ hd tl, g = hd :: tl ∧ isHeaderLine hd = true := by
  intro ls
  induction ls using groupLines.induct with
  | case1 => simp [groupLines_nil]
  | case2 l ls ih =>
    intro hls g hg
    rcases hls with h | ⟨hd, tl, heq, hhd⟩
    · exact absurd h (by simp)
    · have hl : isHeaderLine l = true := by
        injection heq with h₁ h₂
        rw [← h₁] at hhd
        exact hhd
      rw [groupLines_cons] at hg
      rcases List.mem_cons.mp hg with h | h
      · exact ⟨l, _, h, hl⟩
      · refine ih ?_ g h
        rcases hr : ls.dropWhile (fun x => !isHeaderLine x) with _ | ⟨rhd, rtl⟩
        · exact Or.inl rfl
        · refine Or.inr ⟨rhd, rtl, rfl, ?_⟩
          have := head_dropWhile_not (fun x => !isHeaderLine x) ls rhd
            (by rw [hr]; rfl)
          simpa using this

theorem groupLines_later_heads : ∀ (ls : List String),
    ∀ g ∈ (groupLines ls).drop 1, ∃ hd tl, g = hd :: tl ∧ isHeaderLine hd = true := by
  intro ls g hg
  cases ls with
  | nil => rw [groupLines_nil] at hg; simp at hg
  | cons l ls =>
    rw [groupLines_cons] at hg
    simp only [List.drop_succ_cons, List.drop_zero] at hg
    refine groupLines_heads_of_header _ ?_ g hg
    rcases hr : ls.dropWhile (fun x => !isHeaderLine x) with _ | ⟨rhd, rtl⟩
    · exact Or.inl rfl
    · refine Or.inr ⟨rhd, rtl, rfl, ?_⟩
      have := head_dropWhile_not (fun x => !isHeaderLine x) ls rhd (by rw [hr]; rfl)
      simpa using this

theorem isHeaderLine_eq_false_of_head {l : String} {c : Char}
    (h : l.data.head? = some c) (hc : c.isAlpha = false) : isHeaderLine l = false := by
  cases hd : l.data with
  | nil => rw [hd] at h; simp at h
  | cons c₀ rest =>
    rw [hd] at h
    simp at h
    unfold isHeaderLine
    rw [hd]
    show c₀.isAlpha = false
    rw [h]
    exact hc

/-! Equivalence of the stateful omission loop with the per-entry view. -/

theorem omitLines_cons (paths : List String) (l : String) (ls : List String)
    (skip : Bool) :
    omitLines paths (l :: ls) skip =
      if isHeaderLine l then
        (if paths.any (fun p => containsSub l p) && startsWithDiff l then
          l ++ " (omitted)" else l) ::
          omitLines paths ls (paths.any (fun p => containsSub l p))
      else if skip then omitLines paths ls skip
      else l :: omitLines paths ls skip := rfl

theorem entryOmit_cons (paths : List String) (h : String) (body : List String) :
    entryOmit paths (h :: body) =
      if isHeaderLine h then
        (if paths.any (fun p => containsSub h p) then
          (if startsWithDiff h then [h ++ " (omitted)"] else [h])
         else h :: body)
      else h :: body := rfl

theorem omitLines_nonheader_flat (paths : List String) :
    ∀ (body rest : List String) (skip : Bool),
      (∀ x ∈ body, isHeaderLine x = false) →
      omitLines paths (body ++ rest) skip =
        (if skip then [] else body) ++ omitLines paths rest skip := by
  intro body
  induction body with
  | nil => intro rest skip _; simp
  | cons l b ih =>
    intro rest skip hb
    have hl : isHeaderLine l = false := hb l (by simp)
    rw [List.cons_append, omitLines_cons, hl]
    rw [ih rest skip (fun x hx => hb x (by simp [hx]))]
    cases skip <;> simp

theorem omitLines_header_irrel (paths : List String) (l : String) (ls : List String)
    (skip : Bool) (hl : isHeaderLine l = true) :
    omitLines paths (l :: ls) skip = omitLines paths (l :: ls) false := by
  rw [omitLines_cons, omitLines_cons, hl]
  simp

theorem omitLines_groupLines (paths : List String) :
    ∀ ls : List String,
      omitLines paths ls false = ((groupLines ls).map (entryOmit paths)).flatten := by
  intro ls
  induction ls using groupLines.induct with
  | case1 => rw [groupLines_nil]; rfl
  | case2 l ls ih =>
    rw [groupLines_cons]
    simp only [List.map_cons, List.flatten_cons]
    conv =>
      lhs
      rw [show l :: ls = l :: (ls.takeWhile (fun x => !isHeaderLine x) ++
        ls.dropWhile (fun x => !isHeaderLine x)) by
          rw [List.takeWhile_append_dropWhile]]
    rw [omitLines_cons, entryOmit_cons]
    by_cases hl : isHeaderLine l = true
    · rw [hl]
      simp only [if_true]
      rw [omitLines_nonheader_flat paths _ _ _
        (fun x hx => by simpa using List.mem_takeWhile_imp hx)]
      have hrest : omitLines paths (ls.dropWhile (fun x => !isHeaderLine x))
          (paths.any (fun p => containsSub l p)) =
          omitLines paths (ls.dropWhile (fun x => !isHeaderLine x)) false := by
        rcases hr : ls.dropWhile (fun x => !isHeaderLine x) with _ | ⟨rhd, rtl⟩
        · cases (paths.any (fun p => containsSub l p)) <;> rfl
        · have hrh : isHeaderLine rhd = true := by
            have := head_dropWhile_not (fun x => !isHeaderLine x) ls rhd
              (by rw [hr]; rfl)
            simpa using this
          exact omitLines_header_irrel paths rhd rtl _ hrh
      rw [hrest, ih]
      cases hmatch : (paths.any fun p => containsSub l p) with
      | true => cases hdiff : startsWithDiff l <;> simp
      | false => simp
    · simp at hl
      rw [hl]
      simp only [Bool.false_eq_true, if_false]
      rw [omitLines_nonheader_flat paths _ _ _
        (fun x hx => by simpa using List.mem_takeWhile_imp hx)]
      rw [ih]
      simp


theorem isHeaderLine_iff (l : String) :
    isHeaderLine l = true ↔ ∃ c tl, l.data = c :: tl ∧ c.isAlpha = true := by
  cases hd : l.data with
  | nil =>
    have h : isHeaderLine l = false := by unfold isHeaderLine; rw [hd]
    rw [h]
    simp
  | cons c tl =>
    have h : isHeaderLine l = c.isAlpha := by unfold isHeaderLine; rw [hd]
    rw [h]
    constructor
    · intro ha; exact ⟨c, tl, rfl, ha⟩
    · rintro ⟨c₂, t₂, heq, ha⟩
      injection heq with h₁ h₂
      rw [h₁]
      exact ha

/-- C3: the omission pass is exactly the per-entry rewrite entryOmit applied
to each entry of the header-grouped line list: an entry whose header contains
a pattern keeps only its header line, and that header gains the " (omitted)"
suffix exactly when it starts with "diff " (not for every matching header, as
the original claim states); entries whose header matches no pattern are
emitted byte-identical, and a trailing newline is restored exactly when the
input had one and the result is nonempty. -/
theorem claim_C3 (text : String) (paths : List String) :
    omitDiffDetails text paths =
      (let result := joinWith '\n'
         (((groupLines (pySplitlines text)).map (entryOmit paths)).flatten);
       if keepNewline text && result != "" then result ++ "\n" else result) := by
  simp only [omitDiffDetails]
  rw [omitLines_groupLines]

/-- C3 counterexample: a header line that matches an omission pattern but
does not start with "diff " (an "Only in" line) is kept without the
" (omitted)" suffix, contradicting the claim that any matching header gains
the suffix. -/
theorem claim_C3_counterexample :
    isHeaderLine "Only in after: secret.bin" = true ∧
    containsSub "Only in after: secret.bin" "secret" = true ∧
    omitDiffDetails "Only in after: secret.bin\n" ["secret"] =
      "Only in after: secret.bin\n" ∧
    ¬ omitDiffDetails "Only in after: secret.bin\n" ["secret"] =
      "Only in after: secret.bin (omitted)\n" := by decide

/-- C4: decomposing full-diff text into entries: concatenating the groups
restores the input exactly (the final entry is flushed with no terminator
and the first entry needs no preceding header), every group after the first
starts with a header line, no line after a group head is a header, groups
are nonempty, and a line is a header exactly when its first character is
alphabetic — so digits, punctuation and the body markers never start an
entry. -/
theorem claim_C4 (ls : List String) :
    (groupLines ls).flatten = ls ∧
    (∀ g ∈ (groupLines ls).drop 1, ∃ hd tl, g = hd :: tl ∧ isHeaderLine hd = true) ∧
    (∀ g ∈ groupLines ls, ∀ x ∈ g.tail, isHeaderLine x = false) ∧
    (∀ g ∈ groupLines ls, g ≠ []) ∧
    (∀ l : String, isHeaderLine l = true ↔ ∃ c tl, l.data = c :: tl ∧ c.isAlpha = true) :=
  ⟨groupLines_flatten ls, groupLines_later_heads ls, groupLines_tail_nonheader ls,
   groupLines_ne_nil ls, isHeaderLine_iff⟩

theorem claim_C4_witness :
    (groupLines ["diff a b", "--- a", "+++ b", "Only in x: y"]).flatten =
      ["diff a b", "--- a", "+++ b", "Only in x: y"] :=
  (claim_C4 ["diff a b", "--- a", "+++ b", "Only in x: y"]).1

/-- C8: the text renderer is deterministic: rendering the same report value
twice yields byte-identical output. -/
theorem claim_C8 (d₁ d₂ : Val) (h : d₁ = d₂) :
    jsonReportToText d₁ = jsonReportToText d₂ := by rw [h]

theorem claim_C8_witness :
    jsonReportToText (Val.dict []) = jsonReportToText (Val.dict []) :=
  claim_C8 (Val.dict []) (Val.dict []) rfl

theorem rstrip_newline_props (s : String) :
    (pyRstrip s ++ "\n").data ≠ [] ∧
    (pyRstrip s ++ "\n").data.getLast? = some '\n' ∧
    ∀ c, (pyRstrip s ++ "\n").data.dropLast.getLast? = some c →
      pyIsSpace c = false := by
  have hdata : (pyRstrip s ++ "\n").data = rstripChars s.data ++ ['\n'] := by
    rw [String.data_append]
    rfl
  refine ⟨?_, ?_, ?_⟩
  · rw [hdata]; simp
  · rw [hdata]; exact List.getLast?_concat _
  · intro c hc
    rw [hdata, List.dropLast_concat] at hc
    unfold rstripChars at hc
    rw [List.getLast?_reverse] at hc
    exact head_dropWhile_not pyIsSpace _ c hc

/-- C10: every rendered report ends in exactly one newline with no trailing
blank lines: the output is nonempty, its final character is a newline, and
the character before that final newline (when one exists) is never
whitespace — in particular never a second newline. -/
theorem claim_C10 (v : Val) :
    (jsonReportToText v).data ≠ [] ∧
    (jsonReportToText v).data.getLast? = some '\n' ∧
    ∀ c, (jsonReportToText v).data.dropLast.getLast? = some c →
      pyIsSpace c = false :=
  rstrip_newline_props _

theorem claim_C10_witness : pyIsSpace ':' = false :=
  (claim_C10 (Val.dict [])).2.2 ':' (by decide)


end EnvDiff
